import Mathlib

/-!
Session controller of `llm/llama.go`

A shallow embedding of the Go session controller (`marshalPrompt`, `next`,
`checkStopConditions`, `Predict`) and theorems about it.

Modelling conventions.

* Go `int` values (`NumCtx`, `NumKeep`, `cursor`, ...) are `Int`.  The capacity
  `NumCtx` is handed to the engine as a 32-bit `n_ctx`; for any such capacity the
  arithmetic of `marshalPrompt` and `next` stays far inside 64 bits, so no
  wrap-around is modelled for it.  Go's `/` on `int` truncates toward zero and
  is `Int.tdiv`.
* A `C.llama_token` is a 32-bit signed integer; the conversion
  `C.llama_token(x)` of a Go `int` is `llama_token`, which wraps.
* A Go `string` or `[]byte` is a list of bytes.
* A slice expression, a division or a `make` that would panic at run time is an
  explicit guard; the outcome of a call records the session state at that
  point and that it panicked.
* The engine behind `C.llama_*` is a parameter: a state type with transition
  functions.  Logging is not modelled, except for the slice expressions that
  are evaluated to build a log line.
-/

namespace llm

/-- A Go `string` / `[]byte`. -/
abbrev Bytes := List UInt8

/-- The bytes of an ASCII literal. -/
def ascii (s : String) : Bytes := s.data.map (fun c => UInt8.ofNat c.toNat)

/-- The conversion `C.llama_token(x)` of a Go `int` to the signed 32-bit token type. -/
def llama_token (x : Int) : Int := (x + 2 ^ 31) % 2 ^ 32 - 2 ^ 31

/-- The fields of `api.Options` that the session controller reads. -/
structure Options where
  NumCtx : Int
  NumKeep : Int
  NumBatch : Int
  RepeatLastN : Int
  Stop : List Bytes
  EmbeddingOnly : Bool
deriving DecidableEq, Repr

/-- The mutable part of `type llama struct`: the repetition window `last`, the
history `embd`, the `cursor`, and the embedded options.  The engine handles and
the cancellation flag `gc`, which another goroutine writes, belong to the
environment (see `Engine`). -/
structure llama extends Options where
  last : List Int
  embd : List Int
  cursor : Int
deriving DecidableEq, Repr

/-- The state in which a call ended and whether it ended in a run-time panic. -/
structure Outcome where
  llm : llama
  panicked : Bool
deriving DecidableEq, Repr

/-- The slice expression `s[lo:]`: it panics unless `0 ≤ lo ≤ len(s)`. -/
def sliceFrom (s : List Int) (lo : Int) : Option (List Int) :=
  if 0 ≤ lo ∧ lo ≤ s.length then some (s.drop lo.toNat) else none

/-- The slice expression `s[:hi]` of a slice whose capacity is its length: it
panics unless `0 ≤ hi ≤ len(s)`. -/
def sliceTo (s : List Int) (hi : Int) : Option (List Int) :=
  if 0 ≤ hi ∧ hi ≤ s.length then some (s.take hi.toNat) else none

/-- Go's built-in `copy(dst, src)`: the first `min(len(dst), len(src))` elements
of `dst` are overwritten, the length of `dst` is unchanged. -/
def copy (dst src : List Int) : List Int :=
  let n := min dst.length src.length
  src.take n ++ dst.drop n

/-- The loop of `marshalPrompt` (lines 402-405):
`for i = 0; i < len(embd) && i < len(cTokens) && embd[i] == cTokens[i]; i++`. -/
def commonPrefixLen : List Int → List Int → Nat
  | a :: as, b :: bs => if a = b then commonPrefixLen as bs + 1 else 0
  | _, _ => 0

/-- The keep-size clamp of `marshalPrompt` (lines 373-375 and 383-385) for an
assembled sequence of `n` tokens. -/
def marshalPrompt.keep (llm : llama) (n : Nat) : llama :=
  let llm := if llm.NumKeep < 0 then { llm with NumKeep := n } else llm
  if llm.NumCtx - 4 < llm.NumKeep then { llm with NumKeep := llm.NumCtx - 4 } else llm

/-- The truncation branch of `marshalPrompt` (lines 389-395).  It yields the new
repetition window and the truncated sequence, or `none` when a slice expression
or the division panics.  `append(cTokens[:NumKeep], ...)` writes into the
backing array of `cTokens` whenever the result fits its capacity, so the
`copy` that follows reads the array as the append left it. -/
def marshalPrompt.truncate (llm : llama) (cTokens : List Int) : Option (List Int × List Int) :=
  let numLeft := Int.tdiv (llm.NumCtx - llm.NumKeep) 2
  match sliceTo cTokens llm.NumKeep with
  | none => none
  | some kept =>
    if numLeft = 0 then none
    else
      let erasedBlocks := Int.tdiv ((cTokens.length : Int) - llm.NumKeep - numLeft - 1) numLeft
      match sliceFrom cTokens (llm.NumKeep + erasedBlocks * numLeft) with
      | none => none
      | some tail =>
        let truncated := kept ++ tail
        let array :=
          if truncated.length ≤ cTokens.length then truncated ++ cTokens.drop truncated.length
          else cTokens
        match sliceFrom array ((cTokens.length : Int) - llm.NumCtx) with
        | none => none
        | some recent => some (copy llm.last recent, truncated)

/-- The incremental cache of `marshalPrompt` (lines 402-415): the cursor is the
common prefix length of the old history and the new one, minus one when that is
the whole new sequence.  The log line slices `embd[:i]` and `embd[i:]`. -/
def marshalPrompt.cache (llm : llama) (cTokens : List Int) : Outcome :=
  let i : Int := commonPrefixLen llm.embd cTokens
  let llm := { llm with embd := cTokens }
  let i := if i = cTokens.length then i - 1 else i
  let llm := { llm with cursor := i }
  match sliceTo llm.embd i, sliceFrom llm.embd i with
  | some _, some _ => ⟨llm, false⟩
  | _, _ => ⟨llm, true⟩

/-- The method `marshalPrompt(ctx, prompt)`; `encoded` is `llm.Encode(prompt)`. -/
def marshalPrompt (llm : llama) (ctx encoded : List Int) : Outcome :=
  let tokens := ctx ++ encoded
  let cTokens := tokens.map llama_token
  let llm := marshalPrompt.keep llm tokens.length
  if llm.NumCtx ≤ (tokens.length : Int) then
    match marshalPrompt.truncate llm cTokens with
    | none => ⟨llm, true⟩
    | some (last, truncated) => marshalPrompt.cache { llm with last := last } truncated
  else
    marshalPrompt.cache
      { llm with last := List.replicate (llm.NumCtx - cTokens.length).toNat 0 ++ cTokens } cTokens

/-! ### Text helpers of the Go standard library -/

/-- The UTF-8 encodings of the runes for which `unicode.IsSpace` holds:
`\t \n \v \f \r`, space, U+0085, U+00A0, U+1680, U+2000..U+200A, U+2028,
U+2029, U+202F, U+205F, U+3000. -/
def spaceRunes : List Bytes :=
  [[0x09], [0x0A], [0x0B], [0x0C], [0x0D], [0x20],
   [0xC2, 0x85], [0xC2, 0xA0], [0xE1, 0x9A, 0x80],
   [0xE2, 0x80, 0x80], [0xE2, 0x80, 0x81], [0xE2, 0x80, 0x82], [0xE2, 0x80, 0x83],
   [0xE2, 0x80, 0x84], [0xE2, 0x80, 0x85], [0xE2, 0x80, 0x86], [0xE2, 0x80, 0x87],
   [0xE2, 0x80, 0x88], [0xE2, 0x80, 0x89], [0xE2, 0x80, 0x8A],
   [0xE2, 0x80, 0xA8], [0xE2, 0x80, 0xA9], [0xE2, 0x80, 0xAF],
   [0xE2, 0x81, 0x9F], [0xE3, 0x80, 0x80]]

/-- `strings.HasPrefix(s, pre)`. -/
def HasPrefix (s pre : Bytes) : Bool := pre.isPrefixOf s

/-- Removes one leading occurrence of one of `runes`, if there is one. -/
def dropRune (runes : List Bytes) (s : Bytes) : Option Bytes :=
  runes.findSome? (fun r => if HasPrefix s r then some (s.drop r.length) else none)

/-- Removes leading occurrences of `runes`, at most `n` of them. -/
def trimLeft (runes : List Bytes) : Nat → Bytes → Bytes
  | 0, s => s
  | n + 1, s =>
    match dropRune runes s with
    | some t => trimLeft runes n t
    | none => s

/-- `strings.TrimSpace(s)`: the white-space runes at both ends are removed.  A
well-formed encoding of a white-space rune at either end is what
`utf8.DecodeRune` and `utf8.DecodeLastRune` decode there, so trimming runes is
removing these encodings from the front and then from the back. -/
def TrimSpace (s : Bytes) : Bytes :=
  let l := trimLeft spaceRunes s.length s
  (trimLeft (spaceRunes.map List.reverse) l.length l.reverse).reverse

/-- The table `first` of package `unicode/utf8` for a byte `≥ 0x80`: the size of
the encoding that the byte starts and the range accepted for its second byte;
`none` for a byte that starts no encoding. -/
def utf8.first (b : UInt8) : Option (Nat × UInt8 × UInt8) :=
  if 0xC2 ≤ b ∧ b ≤ 0xDF then some (2, 0x80, 0xBF)
  else if b = 0xE0 then some (3, 0xA0, 0xBF)
  else if b = 0xED then some (3, 0x80, 0x9F)
  else if 0xE1 ≤ b ∧ b ≤ 0xEF then some (3, 0x80, 0xBF)
  else if b = 0xF0 then some (4, 0x90, 0xBF)
  else if 0xF1 ≤ b ∧ b ≤ 0xF3 then some (4, 0x80, 0xBF)
  else if b = 0xF4 then some (4, 0x80, 0x8F)
  else none

/-- A continuation byte, `0x80 ≤ c ≤ 0xBF`. -/
def utf8.isCont (c : UInt8) : Bool := 0x80 ≤ c && c ≤ 0xBF

/-- The loop of `utf8.Valid`, at most `n` runes. -/
def utf8.validLoop : Nat → Bytes → Bool
  | _, [] => true
  | 0, _ :: _ => false
  | n + 1, b :: p =>
    if b < 0x80 then utf8.validLoop n p
    else
      match utf8.first b, p with
      | some (2, lo, hi), c1 :: q => lo ≤ c1 && c1 ≤ hi && utf8.validLoop n q
      | some (3, lo, hi), c1 :: c2 :: q =>
        lo ≤ c1 && c1 ≤ hi && utf8.isCont c2 && utf8.validLoop n q
      | some (4, lo, hi), c1 :: c2 :: c3 :: q =>
        lo ≤ c1 && c1 ≤ hi && utf8.isCont c2 && utf8.isCont c3 && utf8.validLoop n q
      | _, _ => false

/-- `utf8.Valid(p)`: `p` consists entirely of well-formed UTF-8 encodings. -/
def utf8.Valid (p : Bytes) : Bool := utf8.validLoop p.length p

/-- `utf8.UTFMax`, the maximum number of bytes of one encoded rune. -/
def utf8.UTFMax : Nat := 4

/-! ### Stop conditions -/

/-- The error values that `next`, `checkStopConditions` and `Predict` handle:
`io.EOF`, `errNeedMoreData` and the error built from a non-zero return value of
`llama_eval`.  A `nil` error is `none : Option error`. -/
inductive error where
  | EOF
  | errNeedMoreData
  | llama_eval (retval : Int)
deriving DecidableEq, Repr

/-- The loop of `checkStopConditions` over the remaining stop strings. -/
def checkStopConditions.loop (b : Bytes) : List Bytes → Option error
  | [] => none
  | stopCondition :: rest =>
    if stopCondition = TrimSpace b then some error.EOF
    else if HasPrefix stopCondition (TrimSpace b) then some error.errNeedMoreData
    else checkStopConditions.loop b rest

/-- The method `checkStopConditions(b)`. -/
def checkStopConditions (llm : llama) (b : Bytes) : Option error :=
  checkStopConditions.loop b llm.Stop

/-! ### The engine and `next` -/

/-- The environment of the session: the engine behind the `C.llama_*` calls and
the cancellation flag `llm.gc` that `Close` sets from another goroutine.  Every
interaction is a transition on the environment state `σ`.

* `llama_eval w tokens n_tokens n_past` is handed the slice `embd[cursor:]`,
  the batch length and the cursor, and yields the return value;
* `llama_sample w opts lastN` stands for building the candidates from the
  current logits and calling `llama_sample` with the options and the window
  slice `lastN`; it yields the sampled token;
* `gc w` is a read of `llm.gc`;
* `Decode` and `Encode` are the methods of these names (`llama_token_to_str`
  and `llama_tokenize`; `Encode` yields `nil`, the empty list, on failure). -/
structure Engine (σ : Type) where
  llama_eval : σ → List Int → Int → Int → Int × σ
  llama_sample : σ → Options → List Int → Int × σ
  llama_token_eos : Int
  gc : σ → Bool × σ
  Decode : Int → Bytes
  Encode : Bytes → List Int

/-- How a call of `next` ended: it returned `(token, err)`, it panicked, or the
evaluation loop was still running when the fuel ran out. -/
inductive NextResult where
  | ret (token : Int) (err : Option error)
  | panic
  | running
deriving DecidableEq, Repr

/-- The session and environment state after a call of `next`, and how it ended. -/
structure NextOutcome (σ : Type) where
  llm : llama
  world : σ
  result : NextResult

/-- The truncation at the head of `next` (lines 449-457); `none` when a slice
expression panics.  `embd[:NumKeep]` is taken within the length of `embd`:
after `marshalPrompt`, `NumKeep ≤ NumCtx - 4 < len(embd)` in this branch. -/
def next.truncate (llm : llama) : Option llama :=
  if llm.NumCtx ≤ (llm.embd.length : Int) then
    let numLeft := Int.tdiv (llm.NumCtx - llm.NumKeep) 2
    match sliceTo llm.embd llm.NumKeep, sliceFrom llm.embd ((llm.embd.length : Int) - numLeft) with
    | some truncated, some tail => some { llm with embd := truncated ++ tail, cursor := llm.NumKeep }
    | _, _ => none
  else some llm

/-- The window slice `lastN` that `next` hands to the sampler (lines 508-517);
`none` when `llm.last[len(llm.last)-repeatLastN:]` panics. -/
def next.lastN (llm : llama) : Option (List Int) :=
  let repeatLastN := llm.RepeatLastN
  let repeatLastN := if (llm.last.length : Int) < repeatLastN then (llm.last.length : Int) else repeatLastN
  let repeatLastN := if llm.NumCtx < repeatLastN then llm.NumCtx else repeatLastN
  sliceFrom llm.last ((llm.last.length : Int) - repeatLastN)

/-- The sampling part of `next` (lines 480-533), entered when the evaluation
loop breaks. -/
def next.sample {σ : Type} (eng : Engine σ) (llm : llama) (w : σ) : NextOutcome σ :=
  match next.lastN llm with
  | none => ⟨llm, w, NextResult.panic⟩
  | some lastN =>
    let (token, w) := eng.llama_sample w llm.toOptions lastN
    let llm := { llm with last := llm.last ++ [token], embd := llm.embd ++ [token] }
    if token = eng.llama_token_eos then ⟨llm, w, NextResult.ret 0 (some error.EOF)⟩
    else ⟨llm, w, NextResult.ret token none⟩

/-- The evaluation loop of `next` (lines 459-478), at most `n` iterations,
followed by the sampling part. -/
def next.loop {σ : Type} (eng : Engine σ) : Nat → llama → σ → NextOutcome σ
  | 0, llm, w => ⟨llm, w, NextResult.running⟩
  | n + 1, llm, w =>
    let (gc, w) := eng.gc w
    if gc then ⟨llm, w, NextResult.ret 0 (some error.EOF)⟩
    else if (llm.embd.length : Int) ≤ llm.cursor then next.sample eng llm w
    else
      let numEval : Int := (llm.embd.length : Int) - llm.cursor
      let numEval := if llm.NumBatch < numEval then llm.NumBatch else numEval
      match sliceFrom llm.embd llm.cursor with
      | none => ⟨llm, w, NextResult.panic⟩
      | some pending =>
        let (retval, w) := eng.llama_eval w pending numEval llm.cursor
        if retval ≠ 0 then ⟨llm, w, NextResult.ret 0 (some (error.llama_eval retval))⟩
        else next.loop eng n { llm with cursor := llm.cursor + numEval } w

/-- The method `next()`; `fuel` bounds the iterations of its evaluation loop. -/
def next {σ : Type} (eng : Engine σ) (fuel : Nat) (llm : llama) (w : σ) : NextOutcome σ :=
  match next.truncate llm with
  | none => ⟨llm, w, NextResult.panic⟩
  | some llm => next.loop eng fuel llm w

/-! ### `Predict` -/

/-- The fields of `api.GenerateResponse` that `Predict` fills, the timing
counters apart. -/
structure GenerateResponse where
  Response : Bytes
  Done : Bool
  Context : List Int
deriving DecidableEq, Repr

/-- What one iteration of the streaming loop does after its token has been
decoded (lines 321-336): go on with a buffer, possibly after delivering a
chunk; leave the loop (`break`); or return an error. -/
inductive Flow where
  | proceed (b : Bytes) (chunk : Option Bytes)
  | stop
  | fail (err : error)
deriving DecidableEq, Repr

/-- Lines 321-336 of `Predict`: the text of the token is appended to the buffer,
the stop conditions are checked, and the buffer is flushed when it is valid
UTF-8 or has reached `utf8.UTFMax` bytes. -/
def Predict.body (llm : llama) (b text : Bytes) : Flow :=
  let b := b ++ text
  match checkStopConditions llm b with
  | some error.EOF => Flow.stop
  | some error.errNeedMoreData => Flow.proceed b none
  | some err => Flow.fail err
  | none =>
    if utf8.Valid b ∨ utf8.UTFMax ≤ b.length then Flow.proceed [] (some b)
    else Flow.proceed b none

/-- How far a call of `Predict` got: still running when the fuel ran out,
returned (with `nil` or an error), or panicked. -/
inductive Status where
  | running
  | returned (err : Option error)
  | panicked
deriving DecidableEq, Repr

/-- A run of `Predict`: the responses handed to the callback `fn`, in order; the
tokens that `next` returned and whose text the loop wrote to the buffer, in
order; the status; and the session and environment state. -/
structure Run (σ : Type) where
  calls : List GenerateResponse
  sampled : List Int
  status : Status
  llm : llama
  world : σ

/-- The end of `Predict` after the loop (lines 339-356): the final response,
with `Done` set and the history as `Context`, is handed to `fn` and `nil` is
returned. -/
def Predict.final {σ : Type} (calls : List GenerateResponse) (sampled : List Int)
    (llm : llama) (w : σ) : Run σ :=
  ⟨calls ++ [⟨[], true, llm.embd⟩], sampled, Status.returned none, llm, w⟩

/-- The streaming loop of `Predict` (lines 310-337) followed by the final
response.  At most `n` iterations; every call of `next` gets `fuel`.  `b` is
the buffer, `calls` and `sampled` are what has been delivered and sampled so
far. -/
def Predict.loop {σ : Type} (eng : Engine σ) (fuel : Nat) :
    Nat → llama → σ → Bytes → List GenerateResponse → List Int → Run σ
  | 0, llm, w, _, calls, sampled => ⟨calls, sampled, Status.running, llm, w⟩
  | n + 1, llm, w, b, calls, sampled =>
    let r := next eng fuel llm w
    match r.result with
    | NextResult.panic => ⟨calls, sampled, Status.panicked, r.llm, r.world⟩
    | NextResult.running => ⟨calls, sampled, Status.running, r.llm, r.world⟩
    | NextResult.ret token err =>
      let (gc, w) := eng.gc r.world
      if gc then ⟨calls, sampled, Status.returned none, r.llm, w⟩
      else
        match err with
        | some error.EOF => Predict.final calls sampled r.llm w
        | some e => ⟨calls, sampled, Status.returned (some e), r.llm, w⟩
        | none =>
          match Predict.body r.llm b (eng.Decode token) with
          | Flow.stop => Predict.final calls (sampled ++ [token]) r.llm w
          | Flow.fail e => ⟨calls, sampled ++ [token], Status.returned (some e), r.llm, w⟩
          | Flow.proceed b none => Predict.loop eng fuel n r.llm w b calls (sampled ++ [token])
          | Flow.proceed b (some chunk) =>
            Predict.loop eng fuel n r.llm w b (calls ++ [⟨chunk, false, []⟩]) (sampled ++ [token])

/-- The method `Predict(ctx, prompt, fn)`; the run records the calls of `fn`. -/
def Predict {σ : Type} (eng : Engine σ) (fuel : Nat) (llm : llama) (w : σ)
    (ctx : List Int) (prompt : Bytes) : Run σ :=
  let m := marshalPrompt llm ctx (eng.Encode prompt)
  if m.panicked then ⟨[], [], Status.panicked, m.llm, w⟩
  else Predict.loop eng fuel fuel m.llm w [] [] []

/-- An engine that samples the tokens of `script` in order and the
end-of-sequence token after them, evaluates without error and is never
cancelled; its state counts the samples taken. -/
def scriptEngine (script : List Int) (eos : Int) (decode : Int → Bytes) (encode : Bytes → List Int) :
    Engine Nat where
  llama_eval := fun w _ _ _ => (0, w)
  llama_sample := fun w _ _ => (script.getD w eos, w + 1)
  llama_token_eos := eos
  gc := fun w => (false, w)
  Decode := decode
  Encode := encode

/-- A decoder given by a table of token texts; other tokens decode to the
empty string. -/
def decodeTable (table : List (Int × Bytes)) (token : Int) : Bytes :=
  (table.lookup token).getD []

/-! ### Concrete sessions and engines used to instantiate the theorems -/

/-- A fresh session with capacity 8, keep-size 2 and batch size 4. -/
def session8 : llama where
  NumCtx := 8
  NumKeep := 2
  NumBatch := 4
  RepeatLastN := 64
  Stop := []
  EmbeddingOnly := false
  last := []
  embd := []
  cursor := 0

/-- A fresh session with capacity 64 and the given stop list. -/
def session64 (stop : List Bytes) : llama where
  NumCtx := 64
  NumKeep := 0
  NumBatch := 8
  RepeatLastN := 64
  Stop := stop
  EmbeddingOnly := false
  last := []
  embd := []
  cursor := 0

/-- An engine whose samples decode in order to `"he"`, `"llo "`, `"STOP"`, `"!"`;
every prompt encodes to the single token 1. -/
def stopEngine : Engine Nat :=
  scriptEngine [10, 11, 12, 13] 2
    (decodeTable [(10, ascii "he"), (11, ascii "llo "), (12, ascii "STOP"), (13, ascii "!")])
    (fun _ => [1])

/-- An engine whose samples decode in order to `"DO"`, `"NE"`. -/
def doneEngine : Engine Nat :=
  scriptEngine [20, 21] 2 (decodeTable [(20, ascii "DO"), (21, ascii "NE")]) (fun _ => [1])

/-- An engine that samples four times the byte token 30, which decodes to the
lone continuation byte `0x80`. -/
def byteEngine : Engine Nat :=
  scriptEngine [30, 30, 30, 30] 2 (decodeTable [(30, [0x80])]) (fun _ => [1])

/-- An engine like `stopEngine` on which `Close` sets the cancellation flag
while the second token is being sampled: a read of `llm.gc` yields `true` once
two samples have been taken. -/
def cancelEngine : Engine Nat :=
  { stopEngine with gc := fun w => (decide (2 ≤ w), w) }

/-! ### `Embedding` -/

/-- The part of the engine that `Embedding` uses besides `llama_eval` and
`Encode`: `llama_n_embd` and, for each index, the entry of the buffer that
`llama_get_embeddings` points to.  `F` is the type of the floating-point
values, which `Embedding` only converts from `float` to `float64`, an exact
conversion that is not modelled. -/
structure EmbeddingEngine (σ F : Type) extends Engine σ where
  llama_n_embd : σ → Int
  llama_get_embeddings : σ → Nat → F

/-- The four errors that `Embedding` builds with `errors.New`. -/
inductive EmbeddingError where
  | notEnabled
  | tokenize
  | eval
  | noEmbeddings
deriving DecidableEq, Repr

/-- What `Embedding` returns, and the session and environment state after it. -/
structure EmbeddingOutcome (σ F : Type) where
  result : Except EmbeddingError (List F)
  llm : llama
  world : σ

/-- The method `Embedding(input)` (lines 536-569). -/
def Embedding {σ F : Type} (eng : EmbeddingEngine σ F) (llm : llama) (w : σ) (input : Bytes) :
    EmbeddingOutcome σ F :=
  if !llm.EmbeddingOnly then ⟨Except.error EmbeddingError.notEnabled, llm, w⟩
  else
    let tokens := eng.Encode input
    if tokens = [] then ⟨Except.error EmbeddingError.tokenize, llm, w⟩
    else
      let cTokens := tokens.map llama_token
      let (retval, w) := eng.llama_eval w cTokens tokens.length 0
      if retval ≠ 0 then ⟨Except.error EmbeddingError.eval, llm, w⟩
      else
        let n := eng.llama_n_embd w
        if n ≤ 0 then ⟨Except.error EmbeddingError.noEmbeddings, llm, w⟩
        else ⟨Except.ok ((List.range n.toNat).map (eng.llama_get_embeddings w)), llm, w⟩

/-! ### `llama_sample` -/

/-- The C struct `llama_sample_options`; `F` is the type of `float` values. -/
structure llama_sample_options (F : Type) where
  repeat_penalty : F
  frequency_penalty : F
  presence_penalty : F
  temperature : F
  top_k : Int
  top_p : F
  tfs_z : F
  typical_p : F
  mirostat : Int
  mirostat_tau : F
  mirostat_eta : F
  penalize_newline : Bool

/-- The sampling primitives of `llama.h` as black boxes.  `S` is the state they
work on, the context `ctx` together with the candidates array `candidates_p`;
`D` is the type of one entry `llama_token_data`; `F` is the type of `float`
values, of which `llama_sample` uses the test `x <= 0` and the product
`2.0f * x`.  The two mirostat samplers take `mu` by pointer; `llama_sample`
discards the updated value, which is not modelled. -/
structure Primitives (S F D : Type) where
  llama_token_nl : Int
  data : S → Int → D
  setData : S → Int → D → S
  le_zero : F → Bool
  two_mul : F → F
  llama_sample_repetition_penalty : S → List Int → F → S
  llama_sample_frequency_and_presence_penalties : S → List Int → F → F → S
  llama_sample_token_greedy : S → Int × S
  llama_sample_temperature : S → F → S
  llama_sample_token_mirostat : S → F → F → Int → F → Int × S
  llama_sample_token_mirostat_v2 : S → F → F → F → Int × S
  llama_sample_top_k : S → Int → Nat → S
  llama_sample_tail_free : S → F → Nat → S
  llama_sample_typical : S → F → Nat → S
  llama_sample_top_p : S → F → Nat → S
  llama_sample_token : S → Int × S

/-- The penalties at the head of `llama_sample` (lines 43-57): the repetition
penalty, then the frequency and presence penalties, then the entry of the
newline token is restored unless `penalize_newline` is set. -/
def llama_sample.penalties {S F D : Type} (p : Primitives S F D) (s : S)
    (last_tokens : List Int) (opts : llama_sample_options F) : S :=
  let newline := p.data s p.llama_token_nl
  let s := p.llama_sample_repetition_penalty s last_tokens opts.repeat_penalty
  let s := p.llama_sample_frequency_and_presence_penalties s last_tokens
    opts.frequency_penalty opts.presence_penalty
  if !opts.penalize_newline then p.setData s p.llama_token_nl newline else s

/-- The C function `llama_sample` (lines 29-86); `s` holds `ctx` and the
candidates, the result is the sampled token and the state after the call. -/
def llama_sample {S F D : Type} (p : Primitives S F D) (s : S)
    (last_tokens : List Int) (opts : llama_sample_options F) : Int × S :=
  let s := llama_sample.penalties p s last_tokens opts
  if p.le_zero opts.temperature then p.llama_sample_token_greedy s
  else if opts.mirostat = 1 then
    let mirostat_m : Int := 100
    let mirostat_mu := p.two_mul opts.mirostat_tau
    let s := p.llama_sample_temperature s opts.temperature
    p.llama_sample_token_mirostat s opts.mirostat_tau opts.mirostat_eta mirostat_m mirostat_mu
  else if opts.mirostat = 2 then
    let mirostat_mu := p.two_mul opts.mirostat_tau
    let s := p.llama_sample_temperature s opts.temperature
    p.llama_sample_token_mirostat_v2 s opts.mirostat_tau opts.mirostat_eta mirostat_mu
  else
    let s := p.llama_sample_top_k s opts.top_k 1
    let s := p.llama_sample_tail_free s opts.tfs_z 1
    let s := p.llama_sample_typical s opts.typical_p 1
    let s := p.llama_sample_top_p s opts.top_p 1
    let s := p.llama_sample_temperature s opts.temperature
    p.llama_sample_token s

/-- Primitives that record the calls made: the state is the list of the names
of the primitives called so far, every `float` is an integer. -/
def tracePrimitives : Primitives (List String) Int Unit where
  llama_token_nl := 13
  data := fun _ _ => ()
  setData := fun s _ _ => s ++ ["restore_newline"]
  le_zero := fun x => decide (x ≤ 0)
  two_mul := fun x => 2 * x
  llama_sample_repetition_penalty := fun s _ _ => s ++ ["repetition_penalty"]
  llama_sample_frequency_and_presence_penalties := fun s _ _ _ =>
    s ++ ["frequency_and_presence_penalties"]
  llama_sample_token_greedy := fun s => (0, s ++ ["token_greedy"])
  llama_sample_temperature := fun s _ => s ++ ["temperature"]
  llama_sample_token_mirostat := fun s _ _ m mu => (m + mu, s ++ ["token_mirostat"])
  llama_sample_token_mirostat_v2 := fun s _ _ mu => (mu, s ++ ["token_mirostat_v2"])
  llama_sample_top_k := fun s _ _ => s ++ ["top_k"]
  llama_sample_tail_free := fun s _ _ => s ++ ["tail_free"]
  llama_sample_typical := fun s _ _ => s ++ ["typical"]
  llama_sample_top_p := fun s _ _ => s ++ ["top_p"]
  llama_sample_token := fun s => (1, s ++ ["token"])

/-- Sampling options over integers: every penalty 1, `top_k = 40`, temperature,
mirostat mode and `mirostat_tau` as given, newlines not penalised. -/
def traceOptions (temperature mirostat tau : Int) : llama_sample_options Int where
  repeat_penalty := 1
  frequency_penalty := 1
  presence_penalty := 1
  temperature := temperature
  top_k := 40
  top_p := 1
  tfs_z := 1
  typical_p := 1
  mirostat := mirostat
  mirostat_tau := tau
  mirostat_eta := 1
  penalize_newline := false

/-! ### Definitions that follow the words of the specification -/

/-- The prompt truncation rule in the words of the specification: block size
`L = (C - K) / 2`, dropped blocks `d = floor((len(T) - K - L - 1) / L)`, result
`T[0:K] ++ T[K + d*L :]`. -/
def promptTruncationRule (C K : Int) (T : List Int) : List Int :=
  let L := (C - K) / 2
  let d := ((T.length : Int) - K - L - 1) / L
  T.take K.toNat ++ T.drop (K + d * L).toNat

/-- The session invariant in the words of the specification:
`0 ≤ cursor ≤ len(history) ≤ capacity`. -/
def sessionInvariant (llm : llama) : Prop :=
  0 ≤ llm.cursor ∧ llm.cursor ≤ (llm.embd.length : Int) ∧ (llm.embd.length : Int) ≤ llm.NumCtx

/-- The configuration that `marshalPrompt` leaves for the calls of `next` of one
`Predict` call: capacity at least 4, batch size at least 1 and the keep-size
clamped to `0 ≤ NumKeep ≤ NumCtx - 4`. -/
def configured (llm : llama) : Prop :=
  4 ≤ llm.NumCtx ∧ 1 ≤ llm.NumBatch ∧ 0 ≤ llm.NumKeep ∧ llm.NumKeep ≤ llm.NumCtx - 4

/-- The text delivered by a list of responses: the concatenation, in order, of
the `Response` of the non-final ones. -/
def deliveredText (calls : List GenerateResponse) : Bytes :=
  ((calls.filter (fun r => !r.Done)).map (fun r => r.Response)).flatten

/-- The content of the buffer `b` of `Predict` when the streaming loop stops, by
the same case analysis as `Predict.loop`: at a stop match the text of the last
token has been written to the buffer, in every other case the buffer is as the
previous iteration left it. -/
def Predict.held {σ : Type} (eng : Engine σ) (fuel : Nat) : Nat → llama → σ → Bytes → Bytes
  | 0, _, _, b => b
  | n + 1, llm, w, b =>
    let r := next eng fuel llm w
    match r.result with
    | NextResult.panic => b
    | NextResult.running => b
    | NextResult.ret token err =>
      let (gc, w) := eng.gc r.world
      if gc then b
      else
        match err with
        | some _ => b
        | none =>
          match Predict.body r.llm b (eng.Decode token) with
          | Flow.stop => b ++ eng.Decode token
          | Flow.fail _ => b ++ eng.Decode token
          | Flow.proceed b _ => Predict.held eng fuel n r.llm w b

/-- An embedding engine over `stopEngine` that reports three embedding values,
`0`, `10` and `20`. -/
def embedEngine : EmbeddingEngine Nat Int where
  toEngine := stopEngine
  llama_n_embd := fun _ => 3
  llama_get_embeddings := fun _ i => 10 * (i : Int)

/-! ## Lemmas on `marshalPrompt` -/

theorem keep_NumKeep (llm : llama) (n : Nat) :
    (marshalPrompt.keep llm n).NumKeep
      = min (if llm.NumKeep < 0 then (n : Int) else llm.NumKeep) (llm.NumCtx - 4) := by
  unfold marshalPrompt.keep
  by_cases h : llm.NumKeep < 0
  · simp only [h, if_true]
    split_ifs with h2
    · show llm.NumCtx - 4 = _
      omega
    · show (n : Int) = _
      omega
  · simp only [h, if_false]
    split_ifs with h2
    · show llm.NumCtx - 4 = _
      omega
    · omega

theorem keep_rest (llm : llama) (n : Nat) :
    (marshalPrompt.keep llm n).NumCtx = llm.NumCtx ∧ (marshalPrompt.keep llm n).embd = llm.embd
      ∧ (marshalPrompt.keep llm n).last = llm.last ∧ (marshalPrompt.keep llm n).cursor = llm.cursor := by
  unfold marshalPrompt.keep
  by_cases h : llm.NumKeep < 0 <;> simp only [h, if_true, if_false] <;> split_ifs <;> simp

theorem cache_llm (llm : llama) (cTokens : List Int) :
    (marshalPrompt.cache llm cTokens).llm =
      { llm with
        embd := cTokens
        cursor := if (commonPrefixLen llm.embd cTokens : Int) = cTokens.length
          then (commonPrefixLen llm.embd cTokens : Int) - 1 else commonPrefixLen llm.embd cTokens } := by
  unfold marshalPrompt.cache
  simp only []
  split <;> rfl

/-- The arithmetic of the truncation branch for a clamped keep-size `K`,
capacity `C` and `n ≥ C` tokens. -/
theorem truncate_arith (C K n : Int) (hK : K ≤ C - 4) (hn : C ≤ n) :
    2 ≤ Int.tdiv (C - K) 2 ∧ 2 * Int.tdiv (C - K) 2 ≤ C - K
      ∧ 0 ≤ Int.tdiv (n - K - Int.tdiv (C - K) 2 - 1) (Int.tdiv (C - K) 2)
      ∧ K + Int.tdiv (n - K - Int.tdiv (C - K) 2 - 1) (Int.tdiv (C - K) 2) * Int.tdiv (C - K) 2
          + Int.tdiv (C - K) 2 + 1 ≤ n
      ∧ n - Int.tdiv (n - K - Int.tdiv (C - K) 2 - 1) (Int.tdiv (C - K) 2) * Int.tdiv (C - K) 2
          ≤ K + 2 * Int.tdiv (C - K) 2 := by
  have hL : Int.tdiv (C - K) 2 = (C - K) / 2 := Int.tdiv_eq_ediv (by omega) (by omega)
  rw [hL]
  generalize hLdef : (C - K) / 2 = L
  have hL2 : 2 ≤ L := by omega
  have hL3 : 2 * L ≤ C - K := by omega
  have hm : 0 ≤ n - K - L - 1 := by omega
  have hd : Int.tdiv (n - K - L - 1) L = (n - K - L - 1) / L := Int.tdiv_eq_ediv hm (by omega)
  rw [hd]
  have h1 := Int.ediv_mul_le (n - K - L - 1) (show L ≠ 0 by omega)
  have h2 := Int.lt_ediv_add_one_mul_self (n - K - L - 1) (show 0 < L by omega)
  have h3 : 0 ≤ (n - K - L - 1) / L := Int.ediv_nonneg hm (by omega)
  rw [add_mul, one_mul] at h2
  generalize (n - K - L - 1) / L * L = q at *
  refine ⟨hL2, hL3, h3, ?_, ?_⟩ <;> omega

/-- The truncation branch does not panic for a clamped keep-size, and what it
yields. -/
theorem truncate_eq (llm : llama) (cTokens : List Int) (hK0 : 0 ≤ llm.NumKeep)
    (hK : llm.NumKeep ≤ llm.NumCtx - 4) (hn : llm.NumCtx ≤ (cTokens.length : Int)) :
    marshalPrompt.truncate llm cTokens =
      some
        (copy llm.last
          (((cTokens.take llm.NumKeep.toNat ++ cTokens.drop (llm.NumKeep
              + Int.tdiv ((cTokens.length : Int) - llm.NumKeep - Int.tdiv (llm.NumCtx - llm.NumKeep) 2 - 1)
                  (Int.tdiv (llm.NumCtx - llm.NumKeep) 2) * Int.tdiv (llm.NumCtx - llm.NumKeep) 2).toNat)
            ++ cTokens.drop (cTokens.take llm.NumKeep.toNat ++ cTokens.drop (llm.NumKeep
              + Int.tdiv ((cTokens.length : Int) - llm.NumKeep - Int.tdiv (llm.NumCtx - llm.NumKeep) 2 - 1)
                  (Int.tdiv (llm.NumCtx - llm.NumKeep) 2) * Int.tdiv (llm.NumCtx - llm.NumKeep) 2).toNat).length).drop
            ((cTokens.length : Int) - llm.NumCtx).toNat),
         cTokens.take llm.NumKeep.toNat ++ cTokens.drop (llm.NumKeep
              + Int.tdiv ((cTokens.length : Int) - llm.NumKeep - Int.tdiv (llm.NumCtx - llm.NumKeep) 2 - 1)
                  (Int.tdiv (llm.NumCtx - llm.NumKeep) 2) * Int.tdiv (llm.NumCtx - llm.NumKeep) 2).toNat) := by
  obtain ⟨hL2, -, hd0, hlo, -⟩ := truncate_arith llm.NumCtx llm.NumKeep cTokens.length hK hn
  unfold marshalPrompt.truncate
  dsimp only
  generalize Int.tdiv (llm.NumCtx - llm.NumKeep) 2 = L at *
  generalize Int.tdiv ((cTokens.length : Int) - llm.NumKeep - L - 1) L = d at *
  have hdL : 0 ≤ d * L := Int.mul_nonneg hd0 (by omega)
  have h1 : sliceTo cTokens llm.NumKeep = some (cTokens.take llm.NumKeep.toNat) := by
    unfold sliceTo
    rw [if_pos ⟨hK0, by omega⟩]
  have h2 : sliceFrom cTokens (llm.NumKeep + d * L) = some (cTokens.drop (llm.NumKeep + d * L).toNat) := by
    unfold sliceFrom
    rw [if_pos ⟨by omega, by omega⟩]
  have hlen : (cTokens.take llm.NumKeep.toNat ++ cTokens.drop (llm.NumKeep + d * L).toNat).length
      ≤ cTokens.length := by
    rw [List.length_append, List.length_take, List.length_drop]
    omega
  simp only [h1, h2, if_neg (show ¬ L = 0 by omega), if_pos hlen]
  have h3 : ∀ a : List Int, a.length = cTokens.length →
      sliceFrom a ((cTokens.length : Int) - llm.NumCtx)
        = some (a.drop ((cTokens.length : Int) - llm.NumCtx).toNat) := by
    intro a ha
    unfold sliceFrom
    rw [if_pos ⟨by omega, by omega⟩]
  rw [h3]
  rw [List.length_append, List.length_drop]
  omega

/-- The length of the truncated sequence and of its two parts. -/
theorem truncate_length (C K : Int) (cTokens : List Int) (hK0 : 0 ≤ K)
    (hK : K ≤ C - 4) (hn : C ≤ (cTokens.length : Int)) :
    (cTokens.take K.toNat).length = K.toNat ∧
    ((cTokens.take K.toNat ++ cTokens.drop (K
        + Int.tdiv ((cTokens.length : Int) - K - Int.tdiv (C - K) 2 - 1)
            (Int.tdiv (C - K) 2) * Int.tdiv (C - K) 2).toNat).length : Int) ≤ C := by
  obtain ⟨hL2, hL3, hd0, hlo, hhi⟩ := truncate_arith C K cTokens.length hK hn
  generalize Int.tdiv (C - K) 2 = L at *
  generalize Int.tdiv ((cTokens.length : Int) - K - L - 1) L = d at *
  have hdL : 0 ≤ d * L := Int.mul_nonneg hd0 (by omega)
  generalize d * L = q at *
  rw [List.length_append, List.length_take, List.length_drop]
  constructor <;> omega

/-- The options after `marshalPrompt` are those after the keep-size clamp. -/
theorem marshalPrompt_toOptions (llm : llama) (ctx encoded : List Int) :
    (marshalPrompt llm ctx encoded).llm.toOptions
      = (marshalPrompt.keep llm (ctx ++ encoded).length).toOptions := by
  unfold marshalPrompt
  dsimp only
  split_ifs with h
  · split
    · rfl
    · rw [cache_llm]
  · rw [cache_llm]

/-- After the clamp the keep-size is non-negative when the capacity is at least 4. -/
theorem keep_nonneg (llm : llama) (n : Nat) (hC : 4 ≤ llm.NumCtx) :
    0 ≤ (marshalPrompt.keep llm n).NumKeep ∧
      (marshalPrompt.keep llm n).NumKeep ≤ (marshalPrompt.keep llm n).NumCtx - 4 := by
  rw [keep_NumKeep, (keep_rest llm n).1]
  split_ifs <;> omega

/-- The history that `marshalPrompt` stores when the input is truncated. -/
theorem marshalPrompt_embd_truncated (llm : llama) (ctx encoded : List Int)
    (hC : 4 ≤ llm.NumCtx) (hn : llm.NumCtx ≤ ((ctx ++ encoded).length : Int)) :
    (marshalPrompt llm ctx encoded).llm.embd =
      ((ctx ++ encoded).map llama_token).take (marshalPrompt.keep llm (ctx ++ encoded).length).NumKeep.toNat
        ++ ((ctx ++ encoded).map llama_token).drop
          ((marshalPrompt.keep llm (ctx ++ encoded).length).NumKeep
            + Int.tdiv ((((ctx ++ encoded).map llama_token).length : Int)
                  - (marshalPrompt.keep llm (ctx ++ encoded).length).NumKeep
                  - Int.tdiv (llm.NumCtx - (marshalPrompt.keep llm (ctx ++ encoded).length).NumKeep) 2 - 1)
                (Int.tdiv (llm.NumCtx - (marshalPrompt.keep llm (ctx ++ encoded).length).NumKeep) 2)
              * Int.tdiv (llm.NumCtx - (marshalPrompt.keep llm (ctx ++ encoded).length).NumKeep) 2).toNat := by
  obtain ⟨hK0, hK⟩ := keep_nonneg llm (ctx ++ encoded).length hC
  have hCtx := (keep_rest llm (ctx ++ encoded).length).1
  have hn2 : (marshalPrompt.keep llm (ctx ++ encoded).length).NumCtx
      ≤ (((ctx ++ encoded).map llama_token).length : Int) := by
    rw [List.length_map, hCtx]; exact hn
  have hT := truncate_eq (marshalPrompt.keep llm (ctx ++ encoded).length)
    ((ctx ++ encoded).map llama_token) hK0 hK hn2
  unfold marshalPrompt
  dsimp only
  rw [if_pos (by rw [hCtx]; exact hn), hT]
  dsimp only
  rw [cache_llm, hCtx]

/-- The history that `marshalPrompt` stores when the input is below capacity. -/
theorem marshalPrompt_embd_short (llm : llama) (ctx encoded : List Int)
    (hn : ((ctx ++ encoded).length : Int) < llm.NumCtx) :
    (marshalPrompt llm ctx encoded).llm.embd = (ctx ++ encoded).map llama_token := by
  have hCtx := (keep_rest llm (ctx ++ encoded).length).1
  unfold marshalPrompt
  dsimp only
  rw [if_neg (by rw [hCtx]; omega), cache_llm]

/-- The loop of lines 402-405 computes the longest common prefix. -/
theorem commonPrefixLen_spec (P T : List Int) :
    commonPrefixLen P T ≤ P.length ∧ commonPrefixLen P T ≤ T.length ∧
      P.take (commonPrefixLen P T) = T.take (commonPrefixLen P T) ∧
      ∀ j : Nat, j ≤ P.length → j ≤ T.length → P.take j = T.take j → j ≤ commonPrefixLen P T := by
  induction P generalizing T with
  | nil => simp [commonPrefixLen]
  | cons a as ih =>
    cases T with
    | nil => simp [commonPrefixLen]
    | cons b bs =>
      obtain ⟨h1, h2, h3, h4⟩ := ih bs
      by_cases hab : a = b
      · subst hab
        simp only [commonPrefixLen, if_true, List.length_cons, List.take_succ_cons]
        refine ⟨by omega, by omega, by rw [h3], ?_⟩
        intro j hj1 hj2 hj
        cases j with
        | zero => omega
        | succ j =>
          simp only [List.take_succ_cons, List.cons.injEq, true_and] at hj
          have := h4 j (by omega) (by omega) hj
          omega
      · simp only [commonPrefixLen, if_neg hab, List.length_cons, List.take_zero]
        refine ⟨by omega, by omega, trivial, ?_⟩
        intro j _ _ hj
        cases j with
        | zero => omega
        | succ j =>
          simp only [List.take_succ_cons, List.cons.injEq] at hj
          exact absurd hj.1 hab

/-- A history followed by new tokens shares exactly the history. -/
theorem commonPrefixLen_append (P S : List Int) (hS : S ≠ []) :
    commonPrefixLen P (P ++ S) = P.length := by
  induction P with
  | nil => cases S with
    | nil => exact absurd rfl hS
    | cons s S => simp [commonPrefixLen]
  | cons a as ih => simp [commonPrefixLen, ih]

/-- The cache step panics, at its log line, exactly on an empty sequence. -/
theorem cache_panicked (llm : llama) (cTokens : List Int) :
    (marshalPrompt.cache llm cTokens).panicked = true ↔ cTokens = [] := by
  obtain ⟨-, h2, -, -⟩ := commonPrefixLen_spec llm.embd cTokens
  unfold marshalPrompt.cache sliceTo sliceFrom
  dsimp only
  generalize commonPrefixLen llm.embd cTokens = i at *
  constructor
  · intro h
    by_contra hne
    have hpos : 0 < cTokens.length := List.length_pos.mpr hne
    have hi : 0 ≤ (if (i : Int) = cTokens.length then (i : Int) - 1 else i)
        ∧ (if (i : Int) = cTokens.length then (i : Int) - 1 else i) ≤ cTokens.length := by
      split_ifs <;> omega
    rw [if_pos hi, if_pos hi] at h
    simp at h
  · intro h
    subst h
    have hi : i = 0 := by simpa using h2
    subst hi
    simp

/-- Unless the truncation branch panics, `marshalPrompt` ends in its cache step,
entered with the old history. -/
theorem marshalPrompt_eq_cache (llm : llama) (ctx encoded : List Int)
    (h : 4 ≤ llm.NumCtx ∨ ((ctx ++ encoded).length : Int) < llm.NumCtx) :
    ∃ (l : llama) (cTokens : List Int),
      marshalPrompt llm ctx encoded = marshalPrompt.cache l cTokens ∧ l.embd = llm.embd := by
  have hCtx := (keep_rest llm (ctx ++ encoded).length).1
  have hE := (keep_rest llm (ctx ++ encoded).length).2.1
  by_cases hn : llm.NumCtx ≤ ((ctx ++ encoded).length : Int)
  · have hC : 4 ≤ llm.NumCtx := by omega
    obtain ⟨hK0, hK⟩ := keep_nonneg llm (ctx ++ encoded).length hC
    have hn2 : (marshalPrompt.keep llm (ctx ++ encoded).length).NumCtx
        ≤ (((ctx ++ encoded).map llama_token).length : Int) := by
      rw [List.length_map, hCtx]; exact hn
    have hT := truncate_eq (marshalPrompt.keep llm (ctx ++ encoded).length)
      ((ctx ++ encoded).map llama_token) hK0 hK hn2
    unfold marshalPrompt
    dsimp only
    rw [if_pos (by rw [hCtx]; exact hn), hT]
    exact ⟨_, _, rfl, hE⟩
  · unfold marshalPrompt
    dsimp only
    rw [if_neg (by rw [hCtx]; exact hn)]
    exact ⟨_, _, rfl, hE⟩

/-! ## Lemmas on `next`, `checkStopConditions` and the streaming loop -/

theorem next_sample_toOptions {σ : Type} (eng : Engine σ) (llm : llama) (w : σ) :
    (next.sample eng llm w).llm.toOptions = llm.toOptions := by
  unfold next.sample
  split
  · rfl
  · dsimp only
    split_ifs <;> rfl

theorem next_loop_toOptions {σ : Type} (eng : Engine σ) (n : Nat) (llm : llama) (w : σ) :
    (next.loop eng n llm w).llm.toOptions = llm.toOptions := by
  induction n generalizing llm w with
  | zero => rfl
  | succ n ih =>
    unfold next.loop
    dsimp only
    split_ifs
    all_goals first
      | rfl
      | exact next_sample_toOptions eng llm _
      | (split
         · rfl
         · split_ifs
           · rfl
           · rw [ih])

/-- The method `next` leaves the options of the session unchanged. -/
theorem next_toOptions {σ : Type} (eng : Engine σ) (fuel : Nat) (llm : llama) (w : σ) :
    (next eng fuel llm w).llm.toOptions = llm.toOptions := by
  unfold next
  split
  · rfl
  · rename_i l hl
    rw [next_loop_toOptions]
    unfold next.truncate at hl
    split_ifs at hl with h
    · dsimp only at hl
      split at hl
      · simp only [Option.some.injEq] at hl
        rw [← hl]
      · exact Option.noConfusion hl
    · simp only [Option.some.injEq] at hl
      rw [← hl]

/-- The stop check only ever yields `nil`, `io.EOF` or `errNeedMoreData`. -/
theorem checkStopConditions_loop_cases (b : Bytes) (stops : List Bytes) :
    checkStopConditions.loop b stops = none ∨
      checkStopConditions.loop b stops = some error.EOF ∨
      checkStopConditions.loop b stops = some error.errNeedMoreData := by
  induction stops with
  | nil => exact Or.inl rfl
  | cons s rest ih =>
    unfold checkStopConditions.loop
    split_ifs
    · exact Or.inr (Or.inl rfl)
    · exact Or.inr (Or.inr rfl)
    · exact ih

/-- A stop string that starts with the trimmed buffer makes the stop check
return a non-nil result. -/
theorem checkStopConditions_loop_of_hasPrefix (b : Bytes) (stops : List Bytes)
    (h : ∃ s ∈ stops, HasPrefix s (TrimSpace b) = true) :
    checkStopConditions.loop b stops = some error.EOF ∨
      checkStopConditions.loop b stops = some error.errNeedMoreData := by
  induction stops with
  | nil =>
    obtain ⟨s, hs, -⟩ := h
    simp at hs
  | cons s rest ih =>
    unfold checkStopConditions.loop
    split_ifs with h1 h2
    · exact Or.inl rfl
    · exact Or.inr rfl
    · obtain ⟨s', hs', hp⟩ := h
      rcases List.mem_cons.mp hs' with rfl | hmem
      · exact absurd hp h2
      · exact ih ⟨s', hmem, hp⟩

/-- What the loop body does, by the result of the stop check. -/
theorem Predict_body_eq (llm : llama) (b text : Bytes) :
    (checkStopConditions llm (b ++ text) = some error.EOF ∧ Predict.body llm b text = Flow.stop) ∨
    (checkStopConditions llm (b ++ text) = some error.errNeedMoreData ∧
      Predict.body llm b text = Flow.proceed (b ++ text) none) ∨
    (checkStopConditions llm (b ++ text) = none ∧
      (utf8.Valid (b ++ text) = true ∨ utf8.UTFMax ≤ (b ++ text).length) ∧
      Predict.body llm b text = Flow.proceed [] (some (b ++ text))) ∨
    (checkStopConditions llm (b ++ text) = none ∧
      ¬ (utf8.Valid (b ++ text) = true ∨ utf8.UTFMax ≤ (b ++ text).length) ∧
      Predict.body llm b text = Flow.proceed (b ++ text) none) := by
  unfold Predict.body
  dsimp only
  rcases checkStopConditions_loop_cases (b ++ text) llm.Stop with h | h | h
  all_goals
    have h' : checkStopConditions llm (b ++ text) = _ := h
    rw [h']
  · by_cases hv : utf8.Valid (b ++ text) = true ∨ utf8.UTFMax ≤ (b ++ text).length
    · exact Or.inr (Or.inr (Or.inl ⟨rfl, hv, by simp only [if_pos hv]⟩))
    · exact Or.inr (Or.inr (Or.inr ⟨rfl, hv, by simp only [if_neg hv]⟩))
  · exact Or.inl ⟨rfl, rfl⟩
  · exact Or.inr (Or.inl ⟨rfl, rfl⟩)

/-- One iteration of the streaming loop whose call of `next` returned a token
and found the session not cancelled. -/
theorem Predict_loop_succ {σ : Type} (eng : Engine σ) (fuel n : Nat) (llm : llama) (w : σ)
    (b : Bytes) (calls : List GenerateResponse) (sampled : List Int) (token : Int)
    (hnext : (next eng fuel llm w).result = NextResult.ret token none)
    (hgc : (eng.gc (next eng fuel llm w).world).1 = false) :
    Predict.loop eng fuel (n + 1) llm w b calls sampled =
      match Predict.body (next eng fuel llm w).llm b (eng.Decode token) with
      | Flow.stop =>
        Predict.final calls (sampled ++ [token]) (next eng fuel llm w).llm
          (eng.gc (next eng fuel llm w).world).2
      | Flow.fail e =>
        ⟨calls, sampled ++ [token], Status.returned (some e), (next eng fuel llm w).llm,
          (eng.gc (next eng fuel llm w).world).2⟩
      | Flow.proceed b none =>
        Predict.loop eng fuel n (next eng fuel llm w).llm (eng.gc (next eng fuel llm w).world).2
          b calls (sampled ++ [token])
      | Flow.proceed b (some chunk) =>
        Predict.loop eng fuel n (next eng fuel llm w).llm (eng.gc (next eng fuel llm w).world).2
          b (calls ++ [⟨chunk, false, []⟩]) (sampled ++ [token]) := by
  rw [Predict.loop]
  dsimp only
  rw [hnext]
  dsimp only
  rw [hgc]
  simp only [Bool.false_eq_true, if_false]

/-! ## More fuel does not change a finished run -/

theorem next_loop_fuel_succ {σ : Type} (eng : Engine σ) (n : Nat) (llm : llama) (w : σ)
    (h : (next.loop eng n llm w).result ≠ NextResult.running) :
    next.loop eng (n + 1) llm w = next.loop eng n llm w := by
  induction n generalizing llm w with
  | zero => exact absurd rfl h
  | succ n ih =>
    rw [next.loop] at h ⊢
    rw [next.loop]
    dsimp only at h ⊢
    split_ifs at h ⊢
    all_goals first
      | rfl
      | (split at h
         · rfl
         · split_ifs at h ⊢
           · rfl
           · exact ih _ _ h)

theorem next_loop_fuel_le {σ : Type} (eng : Engine σ) (n m : Nat) (llm : llama) (w : σ)
    (h : (next.loop eng n llm w).result ≠ NextResult.running) (hnm : n ≤ m) :
    next.loop eng m llm w = next.loop eng n llm w := by
  induction m with
  | zero =>
    have : n = 0 := by omega
    subst this
    rfl
  | succ m ih =>
    by_cases hm : n ≤ m
    · have h1 := ih hm
      rw [next_loop_fuel_succ eng m llm w (by rw [h1]; exact h), h1]
    · have : n = m + 1 := by omega
      subst this
      rfl

/-- A call of `next` that ended within its fuel ends the same way with more. -/
theorem next_fuel_le {σ : Type} (eng : Engine σ) (n m : Nat) (llm : llama) (w : σ)
    (h : (next eng n llm w).result ≠ NextResult.running) (hnm : n ≤ m) :
    next eng m llm w = next eng n llm w := by
  unfold next at h ⊢
  split
  · rfl
  · rename_i l hl
    rw [hl] at h
    exact next_loop_fuel_le eng n m l w h hnm

theorem Predict_loop_fuel_le {σ : Type} (eng : Engine σ) (fuel fuel' : Nat) (hf : fuel ≤ fuel')
    (n : Nat) : ∀ (n' : Nat) (llm : llama) (w : σ) (b : Bytes) (calls : List GenerateResponse)
      (sampled : List Int), n ≤ n' →
      (Predict.loop eng fuel n llm w b calls sampled).status ≠ Status.running →
      Predict.loop eng fuel' n' llm w b calls sampled
        = Predict.loop eng fuel n llm w b calls sampled := by
  induction n with
  | zero =>
    intro n' llm w b calls sampled _ h
    exact absurd rfl h
  | succ n ih =>
    intro n' llm w b calls sampled hn h
    obtain ⟨m, rfl⟩ : ∃ m, n' = m + 1 := ⟨n' - 1, by omega⟩
    have hnm : n ≤ m := by omega
    by_cases hr : (next eng fuel llm w).result = NextResult.running
    · rw [Predict.loop] at h
      dsimp only at h
      rw [hr] at h
      exact absurd rfl h
    · have e := next_fuel_le eng fuel fuel' llm w hr hf
      rw [Predict.loop] at h
      rw [Predict.loop, Predict.loop]
      dsimp only at h ⊢
      rw [e]
      generalize next eng fuel llm w = r at h ⊢
      obtain ⟨rl, rw, rr⟩ := r
      cases rr with
      | panic => rfl
      | running => rfl
      | ret token err =>
        dsimp only at h ⊢
        cases hg : (eng.gc rw).1 with
        | true => simp only [hg, if_true]
        | false =>
          simp only [hg, Bool.false_eq_true, if_false] at h ⊢
          cases err with
          | some e =>
            cases e <;> rfl
          | none =>
            dsimp only at h ⊢
            cases hb : Predict.body rl b (eng.Decode token) with
            | stop => rfl
            | fail e => rfl
            | proceed b' chunk =>
              rw [hb] at h
              cases chunk with
              | none => exact ih m _ _ _ _ _ hnm h
              | some c => exact ih m _ _ _ _ _ hnm h

/-- A run of `Predict` that ended within its fuel is the same with more fuel. -/
theorem Predict_fuel_le {σ : Type} (eng : Engine σ) (fuel fuel' : Nat) (hf : fuel ≤ fuel')
    (llm : llama) (w : σ) (ctx : List Int) (prompt : Bytes)
    (h : (Predict eng fuel llm w ctx prompt).status ≠ Status.running) :
    Predict eng fuel' llm w ctx prompt = Predict eng fuel llm w ctx prompt := by
  unfold Predict at h ⊢
  dsimp only at h ⊢
  split_ifs at h ⊢ with hp
  · rfl
  · exact Predict_loop_fuel_le eng fuel fuel' hf fuel fuel' _ _ _ _ _ hf h

/-! ## The context window controller and the incremental cache -/

/-- C1: for every capacity `C ≥ 4`, every requested keep-size and every
assembled token sequence `T` (in the engine's token type), the history that
`marshalPrompt` stores in `llm.embd` has length at most `C`; and when
`len(T) ≥ C` the effective keep-size `K` (the requested value, or `len(T)` if
that is negative, then lowered to `C - 4` if larger) satisfies `0 ≤ K ≤ len(T)`
and the history begins with `T[0:K]`. -/
theorem marshalPrompt_history_bounded (llm : llama) (ctx encoded : List Int)
    (hC : 4 ≤ llm.NumCtx) :
    ((marshalPrompt llm ctx encoded).llm.embd.length : Int) ≤ llm.NumCtx ∧
    (llm.NumCtx ≤ (((ctx ++ encoded).map llama_token).length : Int) →
      0 ≤ min (if llm.NumKeep < 0 then (((ctx ++ encoded).map llama_token).length : Int)
          else llm.NumKeep) (llm.NumCtx - 4) ∧
      min (if llm.NumKeep < 0 then (((ctx ++ encoded).map llama_token).length : Int)
          else llm.NumKeep) (llm.NumCtx - 4) ≤ (((ctx ++ encoded).map llama_token).length : Int) ∧
      ((ctx ++ encoded).map llama_token).take
          (min (if llm.NumKeep < 0 then (((ctx ++ encoded).map llama_token).length : Int)
            else llm.NumKeep) (llm.NumCtx - 4)).toNat
        <+: (marshalPrompt llm ctx encoded).llm.embd) := by
  obtain ⟨hK0, hK⟩ := keep_nonneg llm (ctx ++ encoded).length hC
  have hCtx := (keep_rest llm (ctx ++ encoded).length).1
  have hKeq := keep_NumKeep llm (ctx ++ encoded).length
  rw [hCtx] at hK
  rw [List.length_map]
  by_cases hn : llm.NumCtx ≤ ((ctx ++ encoded).length : Int)
  · have hE := marshalPrompt_embd_truncated llm ctx encoded hC hn
    have hlen := truncate_length llm.NumCtx (marshalPrompt.keep llm (ctx ++ encoded).length).NumKeep
      ((ctx ++ encoded).map llama_token) hK0 hK (by rw [List.length_map]; exact hn)
    rw [← hKeq, hE]
    refine ⟨hlen.2, fun _ => ⟨hK0, by omega, List.prefix_append _ _⟩⟩
  · rw [marshalPrompt_embd_short llm ctx encoded (by omega), List.length_map]
    exact ⟨by omega, fun h => absurd h hn⟩

/-- Instance of C1: capacity 8, keep-size 2 and sixteen tokens. -/
theorem marshalPrompt_history_bounded_witness :
    (4 : Int) ≤ session8.NumCtx ∧
    (marshalPrompt session8 [1, 2, 3, 4, 5, 6, 7, 8, 9, 10, 11, 12, 13, 14, 15, 16] []).llm.embd
      = [1, 2, 12, 13, 14, 15, 16] ∧
    ((marshalPrompt session8 [1, 2, 3, 4, 5, 6, 7, 8, 9, 10, 11, 12, 13, 14, 15, 16] []).llm.embd.length : Int)
      ≤ session8.NumCtx :=
  ⟨by decide, by decide,
    (marshalPrompt_history_bounded session8
      [1, 2, 3, 4, 5, 6, 7, 8, 9, 10, 11, 12, 13, 14, 15, 16] [] (by decide)).1⟩

/-- C3: for every previously evaluated history `P` and every assembled sequence
`T = P ++ S` with `S` of length `m ≥ 1` and `len(T)` below capacity,
`marshalPrompt` returns normally with history `T` and the cursor exactly
`len(P)`: none of the shared prefix is evaluated again. -/
theorem marshalPrompt_cursor_appended (llm : llama) (ctx encoded S : List Int)
    (hT : (ctx ++ encoded).map llama_token = llm.embd ++ S) (hS : 1 ≤ S.length)
    (hn : ((ctx ++ encoded).length : Int) < llm.NumCtx) :
    (marshalPrompt llm ctx encoded).llm.cursor = llm.embd.length ∧
      (marshalPrompt llm ctx encoded).llm.embd = llm.embd ++ S ∧
      (marshalPrompt llm ctx encoded).panicked = false := by
  have hSne : S ≠ [] := by
    intro h
    rw [h] at hS
    simp at hS
  have hE := marshalPrompt_embd_short llm ctx encoded hn
  obtain ⟨l, cT, hm, hl⟩ := marshalPrompt_eq_cache llm ctx encoded (Or.inr hn)
  have hcT : cT = llm.embd ++ S := by
    rw [hm, cache_llm] at hE
    exact hE.trans hT
  subst hcT
  refine ⟨?_, by rw [hE, hT], ?_⟩
  · rw [hm, cache_llm, hl]
    dsimp only
    rw [commonPrefixLen_append llm.embd S hSne, if_neg]
    rw [List.length_append]
    omega
  · have hp := cache_panicked l (llm.embd ++ S)
    rw [← hm] at hp
    cases hb : (marshalPrompt llm ctx encoded).panicked
    · rfl
    · have := hp.mp hb
      simp [hSne] at this

/-- Instance of C3: history `[1, 2, 3]`, two new tokens, capacity 8. -/
theorem marshalPrompt_cursor_appended_witness :
    ([1, 2, 3] ++ [4, 5] : List Int).map llama_token = [1, 2, 3] ++ [4, 5] ∧
    1 ≤ ([4, 5] : List Int).length ∧
    (marshalPrompt { session8 with embd := [1, 2, 3] } [1, 2, 3] [4, 5]).llm.cursor = 3 :=
  ⟨by decide, by decide,
    (marshalPrompt_cursor_appended { session8 with embd := [1, 2, 3] } [1, 2, 3] [4, 5] [4, 5]
      (by decide) (by decide) (by decide)).1⟩

/-- C4: whenever `marshalPrompt` reaches its cache step (capacity at least 4, or
no truncation), with previous history `P` and new, post-truncation history `T`
it sets the cursor to the length `i` of the longest common prefix of `P` and `T`
(the largest `j` with `P[0:j] = T[0:j]`), except that the cursor is `len(T) - 1`
when `i = len(T)`.  The cursor is never `len(T)`, and it is `len(T) - 1` when
`T` is identical to `P`. -/
theorem marshalPrompt_cursor_longest_common (llm : llama) (ctx encoded : List Int)
    (h : 4 ≤ llm.NumCtx ∨ ((ctx ++ encoded).length : Int) < llm.NumCtx) :
    ∃ i : Nat,
      (i ≤ llm.embd.length ∧ i ≤ (marshalPrompt llm ctx encoded).llm.embd.length ∧
        llm.embd.take i = (marshalPrompt llm ctx encoded).llm.embd.take i ∧
        ∀ j : Nat, j ≤ llm.embd.length → j ≤ (marshalPrompt llm ctx encoded).llm.embd.length →
          llm.embd.take j = (marshalPrompt llm ctx encoded).llm.embd.take j → j ≤ i) ∧
      (marshalPrompt llm ctx encoded).llm.cursor
        = (if i = (marshalPrompt llm ctx encoded).llm.embd.length
            then ((marshalPrompt llm ctx encoded).llm.embd.length : Int) - 1 else (i : Int)) ∧
      (marshalPrompt llm ctx encoded).llm.cursor ≠ (marshalPrompt llm ctx encoded).llm.embd.length ∧
      ((marshalPrompt llm ctx encoded).llm.embd = llm.embd →
        (marshalPrompt llm ctx encoded).llm.cursor
          = ((marshalPrompt llm ctx encoded).llm.embd.length : Int) - 1) := by
  obtain ⟨l, cT, hm, hl⟩ := marshalPrompt_eq_cache llm ctx encoded h
  rw [hm, cache_llm, hl]
  dsimp only
  obtain ⟨h1, h2, h3, h4⟩ := commonPrefixLen_spec llm.embd cT
  refine ⟨commonPrefixLen llm.embd cT, ⟨h1, h2, h3, h4⟩, ?_, ?_, ?_⟩
  · split_ifs with ha hb hb
    · rw [hb]
    · exact absurd (by exact_mod_cast ha) hb
    · exact absurd (by exact_mod_cast hb) ha
    · rfl
  · split_ifs with ha <;> omega
  · intro hPT
    have hfull : commonPrefixLen llm.embd cT = cT.length := by
      have := h4 cT.length (by rw [hPT]) le_rfl (by rw [hPT])
      omega
    rw [if_pos (by exact_mod_cast hfull), hfull]

/-- Instance of C4: the new sequence repeats the previous history `[1, 2, 3]`;
the cursor is 2. -/
theorem marshalPrompt_cursor_longest_common_witness :
    ((4 : Int) ≤ session8.NumCtx ∨ ((([1, 2, 3] ++ []) : List Int).length : Int) < session8.NumCtx) ∧
    (marshalPrompt { session8 with embd := [1, 2, 3] } [1, 2, 3] []).llm.cursor = 2 ∧
    ∃ i : Nat,
      (marshalPrompt { session8 with embd := [1, 2, 3] } [1, 2, 3] []).llm.cursor
        = (if i = (marshalPrompt { session8 with embd := [1, 2, 3] } [1, 2, 3] []).llm.embd.length
            then ((marshalPrompt { session8 with embd := [1, 2, 3] } [1, 2, 3] []).llm.embd.length : Int) - 1
            else (i : Int)) :=
  ⟨by decide, by decide,
    (marshalPrompt_cursor_longest_common { session8 with embd := [1, 2, 3] } [1, 2, 3] []
      (by decide)).imp (fun _ hi => hi.2.1)⟩

/-- C10: for every requested keep-size `K0`, capacity `C` and assembled sequence
`T`, the keep-size that `marshalPrompt` leaves in `llm.NumKeep` is
`min(K', C - 4)` with `K' = len(T)` if `K0 < 0` and `K' = K0` otherwise; it
never exceeds `C - 4`. -/
theorem marshalPrompt_NumKeep_clamped (llm : llama) (ctx encoded : List Int) :
    (marshalPrompt llm ctx encoded).llm.NumKeep
        = min (if llm.NumKeep < 0 then ((ctx ++ encoded).length : Int) else llm.NumKeep)
            (llm.NumCtx - 4) ∧
      (marshalPrompt llm ctx encoded).llm.NumKeep ≤ llm.NumCtx - 4 := by
  have h : (marshalPrompt llm ctx encoded).llm.NumKeep
      = (marshalPrompt.keep llm (ctx ++ encoded).length).NumKeep :=
    congrArg Options.NumKeep (marshalPrompt_toOptions llm ctx encoded)
  rw [h, keep_NumKeep]
  exact ⟨rfl, min_le_right _ _⟩

/-! ## Stop conditions and the repetition window -/

/-- C2 (the code at the failing input): with the stop list `["STOPPING", "STOP"]`
and the buffer `"STOP"`, the trimmed buffer equals the configured stop string
`"STOP"`, yet `checkStopConditions` returns `errNeedMoreData`, not `io.EOF`:
the earlier stop string `"STOPPING"` starts with the buffer and the loop returns
there.  With the two stop strings in the other order the result is `io.EOF`. -/
theorem checkStopConditions_earlier_stop_shadows :
    TrimSpace (ascii "STOP") ∈ ({ session8 with Stop := [ascii "STOPPING", ascii "STOP"] } : llama).Stop ∧
    checkStopConditions { session8 with Stop := [ascii "STOPPING", ascii "STOP"] } (ascii "STOP")
      = some error.errNeedMoreData ∧
    checkStopConditions { session8 with Stop := [ascii "STOP", ascii "STOPPING"] } (ascii "STOP")
      = some error.EOF := by
  decide

/-- C5 (as stated, refuted): with `RepeatLastN = -1`, a window of three tokens
and capacity 8, the slice expression `llm.last[len(llm.last)-repeatLastN:]`
panics; no slice of length `min(RepeatLastN, len(llm.last), NumCtx)` reaches the
sampler, and the call of `next` ends in a panic. -/
theorem next_lastN_negative_panics :
    next.lastN { session8 with RepeatLastN := -1, last := [1, 2, 3] } = none ∧
    (¬ ∃ lastN : List Int,
      next.lastN { session8 with RepeatLastN := -1, last := [1, 2, 3] } = some lastN ∧
      (lastN.length : Int) = min (-1 : Int) (min (([1, 2, 3] : List Int).length : Int) 8)) ∧
    (next (scriptEngine [5] 2 (fun _ => []) (fun _ => [])) 3
      { session8 with RepeatLastN := -1, last := [1, 2, 3] } 0).result = NextResult.panic := by
  refine ⟨by decide, ?_, by decide⟩
  rintro ⟨lastN, h, -⟩
  have h0 : next.lastN { session8 with RepeatLastN := -1, last := [1, 2, 3] } = none := by decide
  rw [h0] at h
  exact Option.noConfusion h

/-- The window slice of `next` for a non-negative `RepeatLastN` and capacity. -/
theorem next_lastN_eq (llm : llama) (hR : 0 ≤ llm.RepeatLastN) (hC : 0 ≤ llm.NumCtx) :
    next.lastN llm = some (llm.last.drop
      ((llm.last.length : Int) - min llm.RepeatLastN (min (llm.last.length : Int) llm.NumCtx)).toNat) := by
  have hr : (if llm.NumCtx < (if (llm.last.length : Int) < llm.RepeatLastN
        then (llm.last.length : Int) else llm.RepeatLastN) then llm.NumCtx
      else (if (llm.last.length : Int) < llm.RepeatLastN then (llm.last.length : Int)
        else llm.RepeatLastN))
      = min llm.RepeatLastN (min (llm.last.length : Int) llm.NumCtx) := by
    split_ifs <;> omega
  unfold next.lastN sliceFrom
  dsimp only
  rw [hr, if_pos ⟨by omega, by omega⟩]

/-- C5 (amended): for every `RepeatLastN ≥ 0`, every repetition window and every
capacity `NumCtx ≥ 0`, the slice `lastN` of the window that `next` passes to the
sampler has length `min(RepeatLastN, len(llm.last), NumCtx)` and consists of the
most recent tokens of the window. -/
theorem next_lastN_window (llm : llama) (hR : 0 ≤ llm.RepeatLastN) (hC : 0 ≤ llm.NumCtx) :
    ∃ lastN : List Int,
      next.lastN llm = some lastN ∧
      (lastN.length : Int) = min llm.RepeatLastN (min (llm.last.length : Int) llm.NumCtx) ∧
      lastN = llm.last.drop (llm.last.length - lastN.length) ∧
      ∀ (σ : Type) (eng : Engine σ) (w : σ),
        (next.sample eng llm w).llm.embd = llm.embd ++ [(eng.llama_sample w llm.toOptions lastN).1] := by
  have hl := next_lastN_eq llm hR hC
  have hlen : ((llm.last.drop ((llm.last.length : Int)
      - min llm.RepeatLastN (min (llm.last.length : Int) llm.NumCtx)).toNat).length : Int)
      = min llm.RepeatLastN (min (llm.last.length : Int) llm.NumCtx) := by
    rw [List.length_drop]
    omega
  refine ⟨_, hl, hlen, ?_, ?_⟩
  · congr 1
    omega
  · intro σ eng w
    unfold next.sample
    rw [hl]
    dsimp only
    split_ifs <;> rfl

/-- Instance of the amended C5: `RepeatLastN = 2`, a window of three tokens,
capacity 8; the slice is the last two tokens. -/
theorem next_lastN_window_witness :
    (0 : Int) ≤ ({ session8 with RepeatLastN := 2, last := [1, 2, 3] } : llama).RepeatLastN ∧
    (0 : Int) ≤ ({ session8 with RepeatLastN := 2, last := [1, 2, 3] } : llama).NumCtx ∧
    next.lastN { session8 with RepeatLastN := 2, last := [1, 2, 3] } = some [2, 3] ∧
    ∃ lastN : List Int,
      next.lastN { session8 with RepeatLastN := 2, last := [1, 2, 3] } = some lastN ∧
      (lastN.length : Int) = 2 :=
  ⟨by decide, by decide, by decide,
    (next_lastN_window { session8 with RepeatLastN := 2, last := [1, 2, 3] }
      (by decide) (by decide)).imp (fun _ h => ⟨h.1, h.2.1⟩)⟩

/-! ## The streaming loop of `Predict` -/

/-- C6: with the stop list `{"STOP"}` and sampled tokens that decode in order to
`"he"`, `"llo "`, `"STOP"`, `"!"`, `Predict` (given fuel 4 or more) returns
`nil` after sampling exactly three tokens; the non-final responses it delivers
are `"he"` and `"llo "`, which concatenate to `"hello "`, and the only other
response is the final one, so `"!"` is never delivered.  In general, in an
iteration where `checkStopConditions` returns `io.EOF` for the buffer, the loop
ends at once: the only response delivered from then on is the final one, which
carries no text. -/
theorem Predict_stops_at_stop_string :
    (∀ k : Nat,
      (Predict stopEngine (4 + k) (session64 [ascii "STOP"]) 0 [] []).status = Status.returned none ∧
      (Predict stopEngine (4 + k) (session64 [ascii "STOP"]) 0 [] []).sampled = [10, 11, 12] ∧
      (Predict stopEngine (4 + k) (session64 [ascii "STOP"]) 0 [] []).calls
        = [⟨ascii "he", false, []⟩, ⟨ascii "llo ", false, []⟩, ⟨[], true, [1, 10, 11, 12]⟩] ∧
      (((Predict stopEngine (4 + k) (session64 [ascii "STOP"]) 0 [] []).calls.filter
          (fun r => !r.Done)).map (fun r => r.Response)).flatten = ascii "hello ") ∧
    (∀ (σ : Type) (eng : Engine σ) (fuel n : Nat) (llm : llama) (w : σ) (b : Bytes)
        (calls : List GenerateResponse) (sampled : List Int) (token : Int),
      (next eng fuel llm w).result = NextResult.ret token none →
      (eng.gc (next eng fuel llm w).world).1 = false →
      checkStopConditions (next eng fuel llm w).llm (b ++ eng.Decode token) = some error.EOF →
      Predict.loop eng fuel (n + 1) llm w b calls sampled
        = ⟨calls ++ [⟨[], true, (next eng fuel llm w).llm.embd⟩], sampled ++ [token],
            Status.returned none, (next eng fuel llm w).llm,
            (eng.gc (next eng fuel llm w).world).2⟩) := by
  constructor
  · intro k
    have h4 : (Predict stopEngine 4 (session64 [ascii "STOP"]) 0 [] []).status ≠ Status.running := by
      decide
    rw [Predict_fuel_le stopEngine 4 (4 + k) (by omega) _ _ _ _ h4]
    decide
  · intro σ eng fuel n llm w b calls sampled token hnext hgc hstop
    rw [Predict_loop_succ eng fuel n llm w b calls sampled token hnext hgc]
    rcases Predict_body_eq (next eng fuel llm w).llm b (eng.Decode token) with h | h | h | h
    · rw [h.2]
      rfl
    all_goals
      rw [hstop] at h
      exact absurd h.1 (by decide)

/-- Instance of C6: the third iteration of the scenario, entered with an empty
buffer after `"he"` and `"llo "` have been delivered. -/
theorem Predict_stops_at_stop_string_witness :
    (next stopEngine 4 { session64 [ascii "STOP"] with embd := [1, 10, 11], cursor := 2 } 2).result
      = NextResult.ret 12 none ∧
    (Predict.loop stopEngine 4 1 { session64 [ascii "STOP"] with embd := [1, 10, 11], cursor := 2 } 2
      [] [⟨ascii "he", false, []⟩, ⟨ascii "llo ", false, []⟩] [10, 11]).calls
      = [⟨ascii "he", false, []⟩, ⟨ascii "llo ", false, []⟩, ⟨[], true, [1, 10, 11, 12]⟩] :=
  ⟨by decide,
    (congrArg Run.calls
      (Predict_stops_at_stop_string.2 Nat stopEngine 4 0
        { session64 [ascii "STOP"] with embd := [1, 10, 11], cursor := 2 } 2 []
        [⟨ascii "he", false, []⟩, ⟨ascii "llo ", false, []⟩] [10, 11] 12
        (by decide) (by decide) (by decide))).trans (by decide)⟩

/-- C7: for every stop list and buffer, if some configured stop string starts
with the whitespace-trimmed buffer, `checkStopConditions` returns a non-nil
result, `io.EOF` or `errNeedMoreData`, and the iteration of the `Predict` loop
delivers no chunk: on `io.EOF` the loop ends with the final response only; on
`errNeedMoreData` it continues with the same responses and the buffer kept, to
which the text of the next token is appended. -/
theorem Predict_buffers_on_stop_start {σ : Type} (eng : Engine σ) (fuel n : Nat) (llm : llama)
    (w : σ) (b : Bytes) (calls : List GenerateResponse) (sampled : List Int) (token : Int)
    (hnext : (next eng fuel llm w).result = NextResult.ret token none)
    (hgc : (eng.gc (next eng fuel llm w).world).1 = false)
    (hpre : ∃ s ∈ llm.Stop, HasPrefix s (TrimSpace (b ++ eng.Decode token)) = true) :
    (checkStopConditions (next eng fuel llm w).llm (b ++ eng.Decode token) = some error.EOF ∧
      Predict.loop eng fuel (n + 1) llm w b calls sampled
        = Predict.final calls (sampled ++ [token]) (next eng fuel llm w).llm
            (eng.gc (next eng fuel llm w).world).2) ∨
    (checkStopConditions (next eng fuel llm w).llm (b ++ eng.Decode token)
        = some error.errNeedMoreData ∧
      Predict.loop eng fuel (n + 1) llm w b calls sampled
        = Predict.loop eng fuel n (next eng fuel llm w).llm (eng.gc (next eng fuel llm w).world).2
            (b ++ eng.Decode token) calls (sampled ++ [token])) := by
  have hStop : (next eng fuel llm w).llm.Stop = llm.Stop :=
    congrArg Options.Stop (next_toOptions eng fuel llm w)
  have hc := checkStopConditions_loop_of_hasPrefix (b ++ eng.Decode token)
    (next eng fuel llm w).llm.Stop (by rw [hStop]; exact hpre)
  rw [Predict_loop_succ eng fuel n llm w b calls sampled token hnext hgc]
  rcases Predict_body_eq (next eng fuel llm w).llm b (eng.Decode token) with h | h | h | h
  · exact Or.inl ⟨h.1, by rw [h.2]⟩
  · exact Or.inr ⟨h.1, by rw [h.2]⟩
  all_goals
    have h1 : checkStopConditions.loop (b ++ eng.Decode token) (next eng fuel llm w).llm.Stop = none :=
      h.1
    rw [h1] at hc
    rcases hc with hc | hc <;> exact Option.noConfusion hc

/-- Instance of C7: stop string `"DONE"` and a first token that decodes to
`"DO"`; the stop check asks for more data and nothing is delivered, the second
token completes the stop string and only the final response follows. -/
theorem Predict_buffers_on_stop_start_witness :
    (next doneEngine 2 { session64 [ascii "DONE"] with embd := [1] } 0).result
      = NextResult.ret 20 none ∧
    (∃ s ∈ ({ session64 [ascii "DONE"] with embd := [1] } : llama).Stop,
      HasPrefix s (TrimSpace ([] ++ doneEngine.Decode 20)) = true) ∧
    checkStopConditions { session64 [ascii "DONE"] with embd := [1] } (ascii "DO")
      = some error.errNeedMoreData ∧
    (Predict.loop doneEngine 2 2 { session64 [ascii "DONE"] with embd := [1] } 0 [] [] []).calls
      = [⟨[], true, [1, 20, 21]⟩] ∧
    ∃ e : error,
      checkStopConditions (next doneEngine 2 { session64 [ascii "DONE"] with embd := [1] } 0).llm
        ([] ++ doneEngine.Decode 20) = some e :=
  ⟨by decide, ⟨ascii "DONE", by decide, by decide⟩, by decide, by decide,
    (Predict_buffers_on_stop_start doneEngine 2 1 { session64 [ascii "DONE"] with embd := [1] } 0
      [] [] [] 20 (by decide) (by decide) ⟨ascii "DONE", by decide, by decide⟩).elim
      (fun h => ⟨_, h.1⟩) (fun h => ⟨_, h.1⟩)⟩

/-- Every text chunk in the responses of the loop is valid UTF-8 or has at
least `utf8.UTFMax` bytes, if that holds of the responses delivered before. -/
theorem Predict_loop_chunks {σ : Type} (eng : Engine σ) (fuel n : Nat) :
    ∀ (llm : llama) (w : σ) (b : Bytes) (calls : List GenerateResponse) (sampled : List Int),
      (∀ r ∈ calls, r.Done = false →
        utf8.Valid r.Response = true ∨ utf8.UTFMax ≤ r.Response.length) →
      ∀ r ∈ (Predict.loop eng fuel n llm w b calls sampled).calls, r.Done = false →
        utf8.Valid r.Response = true ∨ utf8.UTFMax ≤ r.Response.length := by
  induction n with
  | zero =>
    intro llm w b calls sampled hc
    exact hc
  | succ n ih =>
    intro llm w b calls sampled hc
    have hfin : ∀ (s : List Int) (l : llama) (w' : σ),
        ∀ r ∈ (Predict.final calls s l w').calls, r.Done = false →
          utf8.Valid r.Response = true ∨ utf8.UTFMax ≤ r.Response.length := by
      intro s l w' r hr hd
      rcases List.mem_append.mp hr with hr | hr
      · exact hc r hr hd
      · rw [List.mem_singleton] at hr
        subst hr
        exact Bool.noConfusion hd
    rw [Predict.loop]
    dsimp only
    generalize next eng fuel llm w = r
    obtain ⟨rl, rw, rr⟩ := r
    cases rr with
    | panic => exact hc
    | running => exact hc
    | ret token err =>
      dsimp only
      cases hg : (eng.gc rw).1 with
      | true =>
        simp only [hg, if_true]
        exact hc
      | false =>
        simp only [hg, Bool.false_eq_true, if_false]
        cases err with
        | some e =>
          cases e
          · exact hfin _ _ _
          · exact hc
          · exact hc
        | none =>
          dsimp only
          rcases Predict_body_eq rl b (eng.Decode token) with h | h | h | h
          · rw [h.2]
            exact hfin _ _ _
          · rw [h.2]
            exact ih _ _ _ _ _ hc
          · rw [h.2.2]
            apply ih
            intro r hr hd
            rcases List.mem_append.mp hr with hr | hr
            · exact hc r hr hd
            · rw [List.mem_singleton] at hr
              subst hr
              exact h.2.1
          · rw [h.2.2]
            exact ih _ _ _ _ _ hc

/-- C8 (as stated, refuted): four sampled tokens that each decode to the lone
continuation byte `0x80` make `Predict` deliver the non-final chunk
`80 80 80 80`, which is not valid UTF-8: the buffer is flushed once it has
`utf8.UTFMax` bytes, valid or not. -/
theorem Predict_delivers_invalid_chunk :
    (Predict byteEngine 5 (session64 []) 0 [] []).status = Status.returned none ∧
    (⟨[0x80, 0x80, 0x80, 0x80], false, []⟩ : GenerateResponse)
      ∈ (Predict byteEngine 5 (session64 []) 0 [] []).calls ∧
    utf8.Valid [0x80, 0x80, 0x80, 0x80] = false ∧
    ¬ (∀ r ∈ (Predict byteEngine 5 (session64 []) 0 [] []).calls, r.Done = false →
        utf8.Valid r.Response = true) := by
  refine ⟨by decide, by decide, by decide, ?_⟩
  intro h
  have h1 := h ⟨[0x80, 0x80, 0x80, 0x80], false, []⟩ (by decide) rfl
  exact absurd h1 (by decide)

/-- C8 (amended): for every engine (every sequence of decoded token fragments),
every stop list, session and fuel, every non-final chunk that `Predict`
delivers to the callback is valid UTF-8 or at least `utf8.UTFMax` (4) bytes
long. -/
theorem Predict_chunks_valid_or_full {σ : Type} (eng : Engine σ) (fuel : Nat) (llm : llama)
    (w : σ) (ctx : List Int) (prompt : Bytes) :
    ∀ r ∈ (Predict eng fuel llm w ctx prompt).calls, r.Done = false →
      utf8.Valid r.Response = true ∨ utf8.UTFMax ≤ r.Response.length := by
  unfold Predict
  dsimp only
  split_ifs
  · intro r hr
    simp at hr
  · apply Predict_loop_chunks
    intro r hr
    simp at hr

/-- Instance of the amended C8: the chunk `"he"` of the stop scenario is valid
UTF-8, the chunk `80 80 80 80` of the byte scenario has four bytes. -/
theorem Predict_chunks_valid_or_full_witness :
    (utf8.Valid (ascii "he") = true ∨ utf8.UTFMax ≤ (ascii "he").length) ∧
    (utf8.Valid [0x80, 0x80, 0x80, 0x80] = true
      ∨ utf8.UTFMax ≤ ([0x80, 0x80, 0x80, 0x80] : Bytes).length) :=
  ⟨Predict_chunks_valid_or_full stopEngine 4 (session64 [ascii "STOP"]) 0 [] []
      ⟨ascii "he", false, []⟩ (by decide) rfl,
    Predict_chunks_valid_or_full byteEngine 5 (session64 []) 0 [] []
      ⟨[0x80, 0x80, 0x80, 0x80], false, []⟩ (by decide) rfl⟩

/-- C9: in an iteration of the `Predict` loop (its token sampled, the session
not cancelled) the buffer is flushed to the callback and reset if and only if
the stop check returned `nil` and the buffer is valid UTF-8 or at least
`utf8.UTFMax` (4) bytes long; a chunk that is delivered is the whole buffer.
When the condition fails the iteration delivers nothing: the loop ends with the
final response or goes on with the buffer kept.  Hence a buffer that is not
valid UTF-8 and shorter than 4 bytes, such as a lone continuation byte, is not
delivered on its own but held for the next fragment. -/
theorem Predict_flush_iff {σ : Type} (eng : Engine σ) (fuel n : Nat) (llm : llama)
    (w : σ) (b : Bytes) (calls : List GenerateResponse) (sampled : List Int) (token : Int)
    (hnext : (next eng fuel llm w).result = NextResult.ret token none)
    (hgc : (eng.gc (next eng fuel llm w).world).1 = false) :
    (Predict.body (next eng fuel llm w).llm b (eng.Decode token)
        = Flow.proceed [] (some (b ++ eng.Decode token)) ↔
      checkStopConditions (next eng fuel llm w).llm (b ++ eng.Decode token) = none ∧
        (utf8.Valid (b ++ eng.Decode token) = true
          ∨ utf8.UTFMax ≤ (b ++ eng.Decode token).length)) ∧
    (∀ (b' chunk : Bytes),
      Predict.body (next eng fuel llm w).llm b (eng.Decode token) = Flow.proceed b' (some chunk) →
      b' = [] ∧ chunk = b ++ eng.Decode token) ∧
    (checkStopConditions (next eng fuel llm w).llm (b ++ eng.Decode token) = none ∧
        (utf8.Valid (b ++ eng.Decode token) = true
          ∨ utf8.UTFMax ≤ (b ++ eng.Decode token).length) →
      Predict.loop eng fuel (n + 1) llm w b calls sampled
        = Predict.loop eng fuel n (next eng fuel llm w).llm (eng.gc (next eng fuel llm w).world).2
            [] (calls ++ [⟨b ++ eng.Decode token, false, []⟩]) (sampled ++ [token])) ∧
    (¬ (checkStopConditions (next eng fuel llm w).llm (b ++ eng.Decode token) = none ∧
        (utf8.Valid (b ++ eng.Decode token) = true
          ∨ utf8.UTFMax ≤ (b ++ eng.Decode token).length)) →
      Predict.loop eng fuel (n + 1) llm w b calls sampled
          = Predict.final calls (sampled ++ [token]) (next eng fuel llm w).llm
              (eng.gc (next eng fuel llm w).world).2 ∨
        Predict.loop eng fuel (n + 1) llm w b calls sampled
          = Predict.loop eng fuel n (next eng fuel llm w).llm
              (eng.gc (next eng fuel llm w).world).2 (b ++ eng.Decode token) calls
              (sampled ++ [token])) ∧
    (utf8.Valid (b ++ eng.Decode token) = false →
      (b ++ eng.Decode token).length < utf8.UTFMax →
      Predict.loop eng fuel (n + 1) llm w b calls sampled
          = Predict.final calls (sampled ++ [token]) (next eng fuel llm w).llm
              (eng.gc (next eng fuel llm w).world).2 ∨
        Predict.loop eng fuel (n + 1) llm w b calls sampled
          = Predict.loop eng fuel n (next eng fuel llm w).llm
              (eng.gc (next eng fuel llm w).world).2 (b ++ eng.Decode token) calls
              (sampled ++ [token])) := by
  have hstep := Predict_loop_succ eng fuel n llm w b calls sampled token hnext hgc
  have hbody := Predict_body_eq (next eng fuel llm w).llm b (eng.Decode token)
  generalize (next eng fuel llm w).llm = rl at *
  generalize (eng.gc (next eng fuel llm w).world).2 = w' at *
  generalize eng.Decode token = text at *
  have hhold : ¬ (checkStopConditions rl (b ++ text) = none ∧
        (utf8.Valid (b ++ text) = true ∨ utf8.UTFMax ≤ (b ++ text).length)) →
      Predict.loop eng fuel (n + 1) llm w b calls sampled
          = Predict.final calls (sampled ++ [token]) rl w' ∨
        Predict.loop eng fuel (n + 1) llm w b calls sampled
          = Predict.loop eng fuel n rl w' (b ++ text) calls (sampled ++ [token]) := by
    intro hno
    rcases hbody with h | h | h | h
    · rw [h.2] at hstep
      exact Or.inl hstep
    · rw [h.2] at hstep
      exact Or.inr hstep
    · exact absurd ⟨h.1, h.2.1⟩ hno
    · rw [h.2.2] at hstep
      exact Or.inr hstep
  refine ⟨⟨?_, ?_⟩, ?_, ?_, hhold, ?_⟩
  · intro hb
    rcases hbody with h | h | h | h
    · rw [h.2] at hb
      exact Flow.noConfusion hb
    · rw [h.2] at hb
      simp only [Flow.proceed.injEq] at hb
      exact Option.noConfusion hb.2
    · exact ⟨h.1, h.2.1⟩
    · rw [h.2.2] at hb
      simp only [Flow.proceed.injEq] at hb
      exact Option.noConfusion hb.2
  · intro hc
    rcases hbody with h | h | h | h
    · rw [h.1] at hc
      exact Option.noConfusion hc.1
    · rw [h.1] at hc
      exact Option.noConfusion hc.1
    · exact h.2.2
    · exact absurd hc.2 h.2.1
  · intro b' chunk hb
    rcases hbody with h | h | h | h
    · rw [h.2] at hb
      exact Flow.noConfusion hb
    · rw [h.2] at hb
      simp only [Flow.proceed.injEq] at hb
      exact Option.noConfusion hb.2
    · rw [h.2.2] at hb
      simp only [Flow.proceed.injEq, Option.some.injEq] at hb
      exact ⟨hb.1.symm, hb.2.symm⟩
    · rw [h.2.2] at hb
      simp only [Flow.proceed.injEq] at hb
      exact Option.noConfusion hb.2
  · intro hc
    rcases hbody with h | h | h | h
    · rw [h.1] at hc
      exact Option.noConfusion hc.1
    · rw [h.1] at hc
      exact Option.noConfusion hc.1
    · rw [h.2.2] at hstep
      exact hstep
    · exact absurd hc.2 h.2.1
  · intro hv hl
    apply hhold
    rintro ⟨-, h | h⟩
    · rw [hv] at h
      exact Bool.noConfusion h
    · omega

/-- Instance of C9: the first token of the byte scenario decodes to the lone
continuation byte `0x80`; nothing is delivered and the byte is held. -/
theorem Predict_flush_iff_witness :
    (next byteEngine 2 { session64 [] with embd := [1] } 0).result = NextResult.ret 30 none ∧
    (byteEngine.gc (next byteEngine 2 { session64 [] with embd := [1] } 0).world).1 = false ∧
    utf8.Valid ([] ++ byteEngine.Decode 30) = false ∧
    ([] ++ byteEngine.Decode 30).length < utf8.UTFMax ∧
    (Predict.loop byteEngine 2 1 { session64 [] with embd := [1] } 0 [] [] []
        = Predict.final [] ([] ++ [30]) (next byteEngine 2 { session64 [] with embd := [1] } 0).llm
            (byteEngine.gc (next byteEngine 2 { session64 [] with embd := [1] } 0).world).2 ∨
      Predict.loop byteEngine 2 1 { session64 [] with embd := [1] } 0 [] [] []
        = Predict.loop byteEngine 2 0 (next byteEngine 2 { session64 [] with embd := [1] } 0).llm
            (byteEngine.gc (next byteEngine 2 { session64 [] with embd := [1] } 0).world).2
            ([] ++ byteEngine.Decode 30) [] ([] ++ [30])) :=
  ⟨by decide, by decide, by decide, by decide,
    (Predict_flush_iff byteEngine 2 0 { session64 [] with embd := [1] } 0 [] [] [] 30
      (by decide) (by decide)).2.2.2.2 (by decide) (by decide)⟩


/-! ## More on the context window controller -/

theorem keep_NumBatch (llm : llama) (n : Nat) :
    (marshalPrompt.keep llm n).NumBatch = llm.NumBatch := by
  unfold marshalPrompt.keep
  by_cases h : llm.NumKeep < 0 <;> simp only [h, if_true, if_false] <;> split_ifs <;> rfl

/-- The repetition window that `marshalPrompt` stores when the input is below
capacity. -/
theorem marshalPrompt_last_short (llm : llama) (ctx encoded : List Int)
    (hn : ((ctx ++ encoded).length : Int) < llm.NumCtx) :
    (marshalPrompt llm ctx encoded).llm.last
      = List.replicate (llm.NumCtx - (((ctx ++ encoded).map llama_token).length : Int)).toNat 0
          ++ (ctx ++ encoded).map llama_token := by
  have hCtx := (keep_rest llm (ctx ++ encoded).length).1
  unfold marshalPrompt
  dsimp only
  rw [if_neg (by rw [hCtx]; omega), cache_llm, hCtx]

/-- With capacity at least 4 and a non-empty assembled sequence the stored
history is not empty. -/
theorem marshalPrompt_embd_ne_nil (llm : llama) (ctx encoded : List Int)
    (hC : 4 ≤ llm.NumCtx) (hT : ctx ++ encoded ≠ []) :
    (marshalPrompt llm ctx encoded).llm.embd ≠ [] := by
  by_cases hn : llm.NumCtx ≤ ((ctx ++ encoded).length : Int)
  · rw [marshalPrompt_embd_truncated llm ctx encoded hC hn]
    obtain ⟨hK0, hK⟩ := keep_nonneg llm (ctx ++ encoded).length hC
    rw [(keep_rest llm (ctx ++ encoded).length).1] at hK
    have hn2 : llm.NumCtx ≤ (((ctx ++ encoded).map llama_token).length : Int) := by
      rw [List.length_map]; exact hn
    obtain ⟨hL2, -, hd0, hlo, -⟩ := truncate_arith llm.NumCtx
      (marshalPrompt.keep llm (ctx ++ encoded).length).NumKeep
      (((ctx ++ encoded).map llama_token).length : Int) hK hn2
    intro h
    have hlen := congrArg List.length h
    rw [List.length_append, List.length_drop, List.length_nil] at hlen
    generalize Int.tdiv (llm.NumCtx - (marshalPrompt.keep llm (ctx ++ encoded).length).NumKeep) 2
      = L at *
    generalize Int.tdiv ((((ctx ++ encoded).map llama_token).length : Int)
      - (marshalPrompt.keep llm (ctx ++ encoded).length).NumKeep - L - 1) L = d at *
    have hdL : 0 ≤ d * L := Int.mul_nonneg hd0 (by omega)
    generalize d * L = q at *
    omega
  · rw [marshalPrompt_embd_short llm ctx encoded (by omega)]
    intro h
    exact hT (List.map_eq_nil_iff.mp h)

/-- With capacity at least 4 and a non-empty assembled sequence `marshalPrompt`
does not panic, and the cursor lies within the history. -/
theorem marshalPrompt_no_panic (llm : llama) (ctx encoded : List Int)
    (hC : 4 ≤ llm.NumCtx) (hT : ctx ++ encoded ≠ []) :
    (marshalPrompt llm ctx encoded).panicked = false ∧
      0 ≤ (marshalPrompt llm ctx encoded).llm.cursor ∧
      (marshalPrompt llm ctx encoded).llm.cursor
        < ((marshalPrompt llm ctx encoded).llm.embd.length : Int) := by
  have hne := marshalPrompt_embd_ne_nil llm ctx encoded hC hT
  obtain ⟨l, cT, hm, -⟩ := marshalPrompt_eq_cache llm ctx encoded (Or.inl hC)
  rw [hm] at hne ⊢
  rw [cache_llm] at hne
  dsimp only at hne
  have hpos : 0 < cT.length := List.length_pos.mpr hne
  refine ⟨?_, ?_⟩
  · cases hb : (marshalPrompt.cache l cT).panicked
    · rfl
    · exact absurd ((cache_panicked l cT).mp hb) hne
  · rw [cache_llm]
    dsimp only
    obtain ⟨-, h2, -, -⟩ := commonPrefixLen_spec l.embd cT
    split_ifs with h <;> omega

/-- C14: for every capacity `C ≥ 4` and assembled sequence `T` with
`len(T) ≥ C`, the history that `marshalPrompt` stores is exactly
`T[0:K] ++ T[K + d*L :]`, where `K` is the effective keep-size, `L = (C - K) / 2`
and `d = floor((len(T) - K - L - 1) / L)`; here `0 ≤ K`, `2 ≤ L`, `0 ≤ d` and
`K + d*L ≤ len(T)`, and the kept prefix and the kept tail hold the tokens that
`T` has at these positions. -/
theorem marshalPrompt_truncated_history (llm : llama) (ctx encoded : List Int)
    (hC : 4 ≤ llm.NumCtx) (hn : llm.NumCtx ≤ (((ctx ++ encoded).map llama_token).length : Int)) :
    ∀ (K L d : Int),
      K = min (if llm.NumKeep < 0 then (((ctx ++ encoded).map llama_token).length : Int)
            else llm.NumKeep) (llm.NumCtx - 4) →
      L = (llm.NumCtx - K) / 2 →
      d = ((((ctx ++ encoded).map llama_token).length : Int) - K - L - 1) / L →
      (marshalPrompt llm ctx encoded).llm.embd
        = ((ctx ++ encoded).map llama_token).take K.toNat
            ++ ((ctx ++ encoded).map llama_token).drop (K + d * L).toNat ∧
      0 ≤ K ∧ 2 ≤ L ∧ 0 ≤ d ∧ K + d * L ≤ (((ctx ++ encoded).map llama_token).length : Int) ∧
      (∀ i : Nat, (i : Int) < K →
        (marshalPrompt llm ctx encoded).llm.embd[i]? = ((ctx ++ encoded).map llama_token)[i]?) ∧
      (∀ j : Nat,
        (marshalPrompt llm ctx encoded).llm.embd[K.toNat + j]?
          = ((ctx ++ encoded).map llama_token)[(K + d * L).toNat + j]?) := by
  intro K L d hKdef hLdef hddef
  have hn' : llm.NumCtx ≤ ((ctx ++ encoded).length : Int) := by
    rw [List.length_map] at hn; exact hn
  obtain ⟨hK0, hK⟩ := keep_nonneg llm (ctx ++ encoded).length hC
  rw [(keep_rest llm (ctx ++ encoded).length).1] at hK
  have hKeq : (marshalPrompt.keep llm (ctx ++ encoded).length).NumKeep = K := by
    rw [keep_NumKeep, hKdef, List.length_map]
  have hE := marshalPrompt_embd_truncated llm ctx encoded hC hn'
  rw [hKeq] at hE hK0 hK
  obtain ⟨hL2, -, hd0, hlo, -⟩ := truncate_arith llm.NumCtx K
    (((ctx ++ encoded).map llama_token).length : Int) hK hn
  have hLt : Int.tdiv (llm.NumCtx - K) 2 = L := by
    rw [hLdef]; exact Int.tdiv_eq_ediv (by omega) (by omega)
  rw [hLt] at hE hL2 hd0 hlo
  have hdt : Int.tdiv ((((ctx ++ encoded).map llama_token).length : Int) - K - L - 1) L = d := by
    rw [hddef]; exact Int.tdiv_eq_ediv (by omega) (by omega)
  rw [hdt] at hE hd0 hlo
  have hdL : 0 ≤ d * L := Int.mul_nonneg hd0 (by omega)
  have hKlen : K.toNat ≤ ((ctx ++ encoded).map llama_token).length := by omega
  refine ⟨hE, hK0, hL2, hd0, by omega, ?_, ?_⟩
  · intro i hi
    rw [hE, List.getElem?_append_left (by rw [List.length_take]; omega),
      List.getElem?_take_of_lt (by omega)]
  · intro j
    rw [hE, List.getElem?_append_right (by rw [List.length_take]; omega), List.length_take,
      List.getElem?_drop]
    congr 1
    omega

/-- Instance of C14: capacity 8, keep-size 2 and sixteen tokens; `L = 3`,
`d = 3`, and the history is `T[0:2] ++ T[11:]`. -/
theorem marshalPrompt_truncated_history_witness :
    (4 : Int) ≤ session8.NumCtx ∧
    (marshalPrompt session8 [1, 2, 3, 4, 5, 6, 7, 8, 9, 10, 11, 12, 13, 14, 15, 16] []).llm.embd
      = ([1, 2, 3, 4, 5, 6, 7, 8, 9, 10, 11, 12, 13, 14, 15, 16] : List Int).take 2
        ++ ([1, 2, 3, 4, 5, 6, 7, 8, 9, 10, 11, 12, 13, 14, 15, 16] : List Int).drop 11 :=
  ⟨by decide,
    ((marshalPrompt_truncated_history session8
      [1, 2, 3, 4, 5, 6, 7, 8, 9, 10, 11, 12, 13, 14, 15, 16] [] (by decide) (by decide)
      2 3 3 (by decide) (by decide) (by decide)).1.trans (by decide))⟩

/-- C16 (the code at two failing inputs): capacity 8, keep-size 2 and the twelve
tokens `1..12`, so the last 8 tokens of the untruncated sequence are `5..12`.
On a fresh session, whose window is `nil`, `copy` copies nothing and the window
stays empty.  On a session whose window has 8 entries the window becomes
`11 12 7 8 9 10 11 12`: `append(cTokens[:NumKeep], ...)` has already moved the
kept tail inside the array of `cTokens` when `copy` reads its last 8 entries.
On a session whose window has 10 entries only the first 8 are overwritten. -/
theorem marshalPrompt_window_not_recent :
    (([1, 2, 3, 4, 5, 6, 7, 8, 9, 10, 11, 12] : List Int).map llama_token).drop (12 - 8)
      = [5, 6, 7, 8, 9, 10, 11, 12] ∧
    (marshalPrompt session8 [1, 2, 3, 4, 5, 6, 7, 8, 9, 10, 11, 12] []).llm.last = [] ∧
    (marshalPrompt { session8 with last := [0, 0, 0, 0, 0, 0, 0, 0] }
      [1, 2, 3, 4, 5, 6, 7, 8, 9, 10, 11, 12] []).llm.last = [11, 12, 7, 8, 9, 10, 11, 12] ∧
    (marshalPrompt { session8 with last := [0, 0, 0, 0, 0, 0, 0, 0, 41, 42] }
      [1, 2, 3, 4, 5, 6, 7, 8, 9, 10, 11, 12] []).llm.last
        = [11, 12, 7, 8, 9, 10, 11, 12, 41, 42] ∧
    (marshalPrompt session8 [1, 2, 3, 4, 5, 6, 7, 8, 9, 10, 11, 12] []).panicked = false := by
  decide

/-- C18: for every assembled sequence `T` with `len(T) < C`, `marshalPrompt`
performs no truncation, the stored history is `T`, and replaces the repetition
window by a sequence of length exactly `C` made of `C - len(T)` zero padding
tokens followed by the tokens of `T`, whatever the window held before. -/
theorem marshalPrompt_short_window (llm : llama) (ctx encoded : List Int)
    (hn : (((ctx ++ encoded).map llama_token).length : Int) < llm.NumCtx) :
    (marshalPrompt llm ctx encoded).llm.embd = (ctx ++ encoded).map llama_token ∧
    (marshalPrompt llm ctx encoded).llm.last
      = List.replicate (llm.NumCtx - (((ctx ++ encoded).map llama_token).length : Int)).toNat 0
          ++ (ctx ++ encoded).map llama_token ∧
    ((marshalPrompt llm ctx encoded).llm.last.length : Int) = llm.NumCtx := by
  have hn' : ((ctx ++ encoded).length : Int) < llm.NumCtx := by
    rw [List.length_map] at hn; exact hn
  have hl := marshalPrompt_last_short llm ctx encoded hn'
  refine ⟨marshalPrompt_embd_short llm ctx encoded hn', hl, ?_⟩
  rw [hl, List.length_append, List.length_replicate]
  omega

/-- Instance of C18: capacity 8 and three tokens give five zeros and the three
tokens. -/
theorem marshalPrompt_short_window_witness :
    ((([1, 2, 3] ++ [] : List Int).map llama_token).length : Int) < session8.NumCtx ∧
    (marshalPrompt { session8 with last := [7, 7] } [1, 2, 3] []).llm.last
      = [0, 0, 0, 0, 0, 1, 2, 3] ∧
    ((marshalPrompt { session8 with last := [7, 7] } [1, 2, 3] []).llm.last.length : Int)
      = session8.NumCtx :=
  ⟨by decide, by decide,
    (marshalPrompt_short_window { session8 with last := [7, 7] } [1, 2, 3] [] (by decide)).2.2⟩

/-- C19: for every capacity `C ≥ 4`, every requested keep-size and every
non-empty assembled sequence `T`, `marshalPrompt` does not panic.  After the
clamp `0 ≤ K ≤ C - 4`, so the block size `L = (C - K) / 2` is at least 2; in
the truncating case the dividend `len(T) - K - L - 1` is non-negative and the
slice bounds `K`, `K + d*L` and `len(T) - C` lie within `T`; the cursor lies
within the stored history. -/
theorem marshalPrompt_cannot_fail (llm : llama) (ctx encoded : List Int)
    (hC : 4 ≤ llm.NumCtx) (hT : ctx ++ encoded ≠ []) :
    ∀ (K L d : Int),
      K = (marshalPrompt llm ctx encoded).llm.NumKeep →
      L = Int.tdiv (llm.NumCtx - K) 2 →
      d = Int.tdiv ((((ctx ++ encoded).map llama_token).length : Int) - K - L - 1) L →
      (marshalPrompt llm ctx encoded).panicked = false ∧
      0 ≤ K ∧ K ≤ llm.NumCtx - 4 ∧ 2 ≤ L ∧
      (llm.NumCtx ≤ (((ctx ++ encoded).map llama_token).length : Int) →
        0 ≤ (((ctx ++ encoded).map llama_token).length : Int) - K - L - 1 ∧
        K ≤ (((ctx ++ encoded).map llama_token).length : Int) ∧
        0 ≤ K + d * L ∧ K + d * L ≤ (((ctx ++ encoded).map llama_token).length : Int) ∧
        0 ≤ (((ctx ++ encoded).map llama_token).length : Int) - llm.NumCtx ∧
        (((ctx ++ encoded).map llama_token).length : Int) - llm.NumCtx
          ≤ (((ctx ++ encoded).map llama_token).length : Int)) ∧
      0 ≤ (marshalPrompt llm ctx encoded).llm.cursor ∧
      (marshalPrompt llm ctx encoded).llm.cursor
        ≤ ((marshalPrompt llm ctx encoded).llm.embd.length : Int) := by
  intro K L d hKdef hLdef hddef
  obtain ⟨hp, hc0, hc1⟩ := marshalPrompt_no_panic llm ctx encoded hC hT
  obtain ⟨hK0, hK⟩ := keep_nonneg llm (ctx ++ encoded).length hC
  rw [(keep_rest llm (ctx ++ encoded).length).1] at hK
  have hKeq : (marshalPrompt.keep llm (ctx ++ encoded).length).NumKeep = K := by
    rw [hKdef]
    exact (congrArg Options.NumKeep (marshalPrompt_toOptions llm ctx encoded)).symm
  rw [hKeq] at hK0 hK
  have hL2 : 2 ≤ L := by
    rw [hLdef, Int.tdiv_eq_ediv (by omega) (by omega)]
    omega
  refine ⟨hp, hK0, hK, hL2, ?_, hc0, by omega⟩
  intro hn
  obtain ⟨-, hL3, hd0, hlo, -⟩ := truncate_arith llm.NumCtx K
    (((ctx ++ encoded).map llama_token).length : Int) hK hn
  rw [← hLdef] at hL3 hd0 hlo
  rw [← hddef] at hd0 hlo
  have hdL : 0 ≤ d * L := Int.mul_nonneg hd0 (by omega)
  generalize d * L = q at *
  refine ⟨by omega, by omega, by omega, by omega, by omega, by omega⟩

/-- Instance of C19: capacity 8, a negative requested keep-size and twelve
tokens; the keep-size becomes 4, the block size 2, and nothing panics. -/
theorem marshalPrompt_cannot_fail_witness :
    (4 : Int) ≤ ({ session8 with NumKeep := -1 } : llama).NumCtx ∧
    ([1, 2, 3, 4, 5, 6, 7, 8, 9, 10, 11, 12] ++ [] : List Int) ≠ [] ∧
    (marshalPrompt { session8 with NumKeep := -1 }
      [1, 2, 3, 4, 5, 6, 7, 8, 9, 10, 11, 12] []).llm.NumKeep = 4 ∧
    (marshalPrompt { session8 with NumKeep := -1 }
      [1, 2, 3, 4, 5, 6, 7, 8, 9, 10, 11, 12] []).panicked = false :=
  ⟨by decide, by decide, by decide,
    (marshalPrompt_cannot_fail { session8 with NumKeep := -1 }
      [1, 2, 3, 4, 5, 6, 7, 8, 9, 10, 11, 12] [] (by decide) (by decide)
      4 2 2 (by decide) (by decide) (by decide)).1⟩

/-! ## Truncation and the session invariant in `next` -/

/-- The truncation at the head of `next` for a keep-size within the capacity. -/
theorem next_truncate_eq (llm : llama) (hK0 : 0 ≤ llm.NumKeep) (hK : llm.NumKeep ≤ llm.NumCtx)
    (hn : llm.NumCtx ≤ (llm.embd.length : Int)) :
    next.truncate llm = some
      { llm with
        embd := llm.embd.take llm.NumKeep.toNat
          ++ llm.embd.drop ((llm.embd.length : Int) - Int.tdiv (llm.NumCtx - llm.NumKeep) 2).toNat
        cursor := llm.NumKeep } := by
  have hL : Int.tdiv (llm.NumCtx - llm.NumKeep) 2 = (llm.NumCtx - llm.NumKeep) / 2 :=
    Int.tdiv_eq_ediv (by omega) (by omega)
  unfold next.truncate sliceTo sliceFrom
  dsimp only
  rw [if_pos hn, if_pos ⟨hK0, by omega⟩, if_pos ⟨by omega, by omega⟩]

/-- C15 (as stated, refuted): capacity 8, keep-size 2 and a history of the
eight tokens `1..8`.  `next` truncates the history to `1 2 6 7 8`, the kept
prefix and the last `L = 3` tokens, and sets the cursor to 2; the prompt
truncation rule gives `d = 0` and so the whole history `1..8`. -/
theorem next_truncation_differs :
    next.truncate { session8 with embd := [1, 2, 3, 4, 5, 6, 7, 8], cursor := 8 }
      = some { session8 with embd := [1, 2, 6, 7, 8], cursor := 2 } ∧
    promptTruncationRule 8 2 [1, 2, 3, 4, 5, 6, 7, 8] = [1, 2, 3, 4, 5, 6, 7, 8] ∧
    (next (scriptEngine [9] 0 (fun _ => []) (fun _ => [])) 3
      { session8 with embd := [1, 2, 3, 4, 5, 6, 7, 8], cursor := 8 } 0).llm.embd
      = [1, 2, 6, 7, 8, 9] ∧
    ¬ (∃ l : llama,
      next.truncate { session8 with embd := [1, 2, 3, 4, 5, 6, 7, 8], cursor := 8 } = some l ∧
      l.embd = promptTruncationRule 8 2 [1, 2, 3, 4, 5, 6, 7, 8]) := by
  refine ⟨by decide, by decide, by decide, ?_⟩
  rintro ⟨l, h1, h2⟩
  have h0 : next.truncate { session8 with embd := [1, 2, 3, 4, 5, 6, 7, 8], cursor := 8 }
      = some { session8 with embd := [1, 2, 6, 7, 8], cursor := 2 } := by decide
  rw [h0] at h1
  have h3 : l.embd = [1, 2, 6, 7, 8] := by
    rw [← Option.some.inj h1]
  have h4 : promptTruncationRule 8 2 [1, 2, 3, 4, 5, 6, 7, 8] = [1, 2, 3, 4, 5, 6, 7, 8] := by
    decide
  rw [h3, h4] at h2
  exact absurd h2 (by decide)

/-- C15 (amended): whenever `next` is entered with a history of length at least
`C` and a clamped keep-size `0 ≤ K ≤ C - 4`, the history it truncates to is
`history[0:K]` followed by the last `L` tokens of the history, with the
recomputed `L = (C - K) / 2`; it has `K + L` tokens, fewer than the prompt
truncation rule of `marshalPrompt` keeps of the same history; the cursor is set
to `K` and the evaluation loop starts from that state. -/
theorem next_truncates_to_keep_and_last_block (llm : llama) (hK0 : 0 ≤ llm.NumKeep)
    (hK : llm.NumKeep ≤ llm.NumCtx - 4) (hn : llm.NumCtx ≤ (llm.embd.length : Int)) :
    ∀ L : Int, L = (llm.NumCtx - llm.NumKeep) / 2 →
      ∃ l : llama,
        next.truncate llm = some l ∧
        l.embd = llm.embd.take llm.NumKeep.toNat
          ++ llm.embd.drop ((llm.embd.length : Int) - L).toNat ∧
        (l.embd.length : Int) = llm.NumKeep + L ∧
        l.embd.length < (promptTruncationRule llm.NumCtx llm.NumKeep llm.embd).length ∧
        l.cursor = llm.NumKeep ∧
        l.toOptions = llm.toOptions ∧ l.last = llm.last ∧
        ∀ (σ : Type) (eng : Engine σ) (fuel : Nat) (w : σ),
          next eng fuel llm w = next.loop eng fuel l w := by
  intro L hLdef
  have hL : Int.tdiv (llm.NumCtx - llm.NumKeep) 2 = L := by
    rw [hLdef]; exact Int.tdiv_eq_ediv (by omega) (by omega)
  have ht := next_truncate_eq llm hK0 (by omega) hn
  rw [hL] at ht
  obtain ⟨-, hL3, hd0, hlo, -⟩ := truncate_arith llm.NumCtx llm.NumKeep
    (llm.embd.length : Int) hK hn
  rw [hL] at hL3 hd0 hlo
  rw [Int.tdiv_eq_ediv (by omega) (by omega)] at hd0 hlo
  have hL2 : 2 ≤ L := by omega
  refine ⟨_, ht, rfl, ?_, ?_, rfl, rfl, rfl, ?_⟩
  · dsimp only
    rw [List.length_append, List.length_take, List.length_drop]
    omega
  · unfold promptTruncationRule
    dsimp only
    rw [← hLdef]
    have hdL : 0 ≤ ((llm.embd.length : Int) - llm.NumKeep - L - 1) / L * L :=
      Int.mul_nonneg hd0 (by omega)
    generalize ((llm.embd.length : Int) - llm.NumKeep - L - 1) / L * L = q at *
    rw [List.length_append, List.length_take, List.length_drop, List.length_append,
      List.length_take, List.length_drop]
    omega
  · intro σ eng fuel w
    unfold next
    rw [ht]

/-- Instance of the amended C15: capacity 8, keep-size 2, history `1..8`. -/
theorem next_truncates_to_keep_and_last_block_witness :
    (0 : Int) ≤ session8.NumKeep ∧ session8.NumKeep ≤ session8.NumCtx - 4 ∧
    session8.NumCtx ≤ (([1, 2, 3, 4, 5, 6, 7, 8] : List Int).length : Int) ∧
    ∃ l : llama,
      next.truncate { session8 with embd := [1, 2, 3, 4, 5, 6, 7, 8], cursor := 8 } = some l ∧
      l.embd = [1, 2, 6, 7, 8] ∧ l.cursor = 2 :=
  ⟨by decide, by decide, by decide,
    (next_truncates_to_keep_and_last_block
      { session8 with embd := [1, 2, 3, 4, 5, 6, 7, 8], cursor := 8 }
      (by decide) (by decide) (by decide) 3 (by decide)).imp
      (fun _ h => ⟨h.1, h.2.1.trans (by decide), h.2.2.2.2.1⟩)⟩

theorem next_sample_invariant {σ : Type} (eng : Engine σ) (l : llama) (w : σ)
    (h0 : 0 ≤ l.cursor) (h1 : l.cursor ≤ (l.embd.length : Int))
    (h2 : (l.embd.length : Int) < l.NumCtx) :
    sessionInvariant (next.sample eng l w).llm := by
  have hl : sessionInvariant l := ⟨h0, h1, by omega⟩
  unfold next.sample
  split
  · exact hl
  · dsimp only
    split_ifs
    all_goals
      refine ⟨h0, ?_, ?_⟩
      · show l.cursor ≤ ((l.embd ++ [_]).length : Int)
        rw [List.length_append, List.length_singleton]
        push_cast
        omega
      · show ((l.embd ++ [_]).length : Int) ≤ l.NumCtx
        rw [List.length_append, List.length_singleton]
        push_cast
        omega

theorem next_sample_not_running {σ : Type} (eng : Engine σ) (l : llama) (w : σ) :
    (next.sample eng l w).result ≠ NextResult.running := by
  unfold next.sample
  split
  · exact NextResult.noConfusion
  · dsimp only
    split_ifs <;> exact NextResult.noConfusion

/-- The evaluation loop and the sampling keep the session invariant, however
the call ends. -/
theorem next_loop_invariant {σ : Type} (eng : Engine σ) (n : Nat) :
    ∀ (l : llama) (w : σ), 1 ≤ l.NumBatch → 0 ≤ l.cursor → l.cursor ≤ (l.embd.length : Int) →
      (l.embd.length : Int) < l.NumCtx → sessionInvariant (next.loop eng n l w).llm := by
  induction n with
  | zero =>
    intro l w _ h0 h1 h2
    have hl : sessionInvariant l := ⟨h0, h1, by omega⟩
    exact hl
  | succ n ih =>
    intro l w hB h0 h1 h2
    have hl : sessionInvariant l := ⟨h0, h1, by omega⟩
    rw [next.loop]
    dsimp only
    split_ifs with hg hc hb
    · exact hl
    · exact next_sample_invariant eng l _ h0 h1 h2
    · split
      · exact hl
      · split_ifs
        · exact hl
        · exact ih _ _ hB (by show 0 ≤ l.cursor + l.NumBatch; omega)
            (by show l.cursor + l.NumBatch ≤ (l.embd.length : Int); omega) h2
    · split
      · exact hl
      · split_ifs
        · exact hl
        · exact ih _ _ hB
            (by show 0 ≤ l.cursor + ((l.embd.length : Int) - l.cursor); omega)
            (by show l.cursor + ((l.embd.length : Int) - l.cursor) ≤ (l.embd.length : Int); omega)
            h2

/-- With a batch size of at least 1 the evaluation loop ends within
`len(embd) - cursor + 1` iterations. -/
theorem next_loop_terminates {σ : Type} (eng : Engine σ) (n : Nat) :
    ∀ (l : llama) (w : σ), 1 ≤ l.NumBatch →
      ((l.embd.length : Int) - l.cursor).toNat + 1 ≤ n →
      (next.loop eng n l w).result ≠ NextResult.running := by
  induction n with
  | zero =>
    intro l w _ hn
    omega
  | succ n ih =>
    intro l w hB hn
    rw [next.loop]
    dsimp only
    split_ifs with hg hc hb
    · exact NextResult.noConfusion
    · exact next_sample_not_running eng l _
    · split
      · exact NextResult.noConfusion
      · split_ifs
        · exact NextResult.noConfusion
        · exact ih _ _ hB
            (by show ((l.embd.length : Int) - (l.cursor + l.NumBatch)).toNat + 1 ≤ n; omega)
    · split
      · exact NextResult.noConfusion
      · split_ifs
        · exact NextResult.noConfusion
        · exact ih _ _ hB
            (by show ((l.embd.length : Int)
                  - (l.cursor + ((l.embd.length : Int) - l.cursor))).toNat + 1 ≤ n
                omega)

/-- The state that the evaluation loop of `next` starts from. -/
theorem next_truncate_ready (l : llama) (hc : configured l) (hi : sessionInvariant l) :
    ∃ l' : llama, next.truncate l = some l' ∧ l'.toOptions = l.toOptions ∧
      0 ≤ l'.cursor ∧ l'.cursor ≤ (l'.embd.length : Int) ∧ (l'.embd.length : Int) < l.NumCtx ∧
      l'.embd.length ≤ l.embd.length := by
  obtain ⟨hC, hB, hK0, hK⟩ := hc
  obtain ⟨h0, h1, h2⟩ := hi
  by_cases hn : l.NumCtx ≤ (l.embd.length : Int)
  · refine ⟨_, next_truncate_eq l hK0 (by omega) hn, rfl, hK0, ?_, ?_, ?_⟩
    all_goals
      dsimp only
      rw [List.length_append, List.length_take, List.length_drop,
        Int.tdiv_eq_ediv (by omega) (by omega)]
      omega
  · refine ⟨l, ?_, rfl, h0, h1, by omega, le_rfl⟩
    unfold next.truncate
    rw [if_neg hn]

/-- A call of `next` keeps the configuration and the session invariant, however
it ends, and it ends within `len(embd) + 2` iterations of its loop. -/
theorem next_invariant {σ : Type} (eng : Engine σ) (fuel : Nat) (l : llama) (w : σ)
    (hc : configured l) (hi : sessionInvariant l) :
    configured (next eng fuel l w).llm ∧ sessionInvariant (next eng fuel l w).llm ∧
      (l.embd.length + 2 ≤ fuel → (next eng fuel l w).result ≠ NextResult.running) := by
  have ho := next_toOptions eng fuel l w
  refine ⟨?_, ?_, ?_⟩
  · obtain ⟨hC, hB, hK0, hK⟩ := hc
    exact ⟨by rw [show (next eng fuel l w).llm.NumCtx = l.NumCtx from congrArg Options.NumCtx ho]
              exact hC,
      by rw [show (next eng fuel l w).llm.NumBatch = l.NumBatch from congrArg Options.NumBatch ho]
         exact hB,
      by rw [show (next eng fuel l w).llm.NumKeep = l.NumKeep from congrArg Options.NumKeep ho]
         exact hK0,
      by rw [show (next eng fuel l w).llm.NumKeep = l.NumKeep from congrArg Options.NumKeep ho,
           show (next eng fuel l w).llm.NumCtx = l.NumCtx from congrArg Options.NumCtx ho]
         exact hK⟩
  · obtain ⟨l', ht, hopt, h0, h1, h2, -⟩ := next_truncate_ready l hc hi
    unfold next
    rw [ht]
    dsimp only
    have hB : 1 ≤ l'.NumBatch := by
      rw [show l'.NumBatch = l.NumBatch from congrArg Options.NumBatch hopt]
      exact hc.2.1
    have hCe : l'.NumCtx = l.NumCtx := congrArg Options.NumCtx hopt
    exact next_loop_invariant eng fuel l' w hB h0 h1 (by rw [hCe]; exact h2)
  · intro hf
    obtain ⟨l', ht, hopt, h0, h1, h2, h3⟩ := next_truncate_ready l hc hi
    unfold next
    rw [ht]
    dsimp only
    have hB : 1 ≤ l'.NumBatch := by
      rw [show l'.NumBatch = l.NumBatch from congrArg Options.NumBatch hopt]
      exact hc.2.1
    apply next_loop_terminates eng fuel l' w hB
    omega

/-- The stored history fits the capacity. -/
theorem marshalPrompt_embd_length_le (llm : llama) (ctx encoded : List Int)
    (hC : 4 ≤ llm.NumCtx) :
    ((marshalPrompt llm ctx encoded).llm.embd.length : Int) ≤ llm.NumCtx := by
  obtain ⟨hK0, hK⟩ := keep_nonneg llm (ctx ++ encoded).length hC
  rw [(keep_rest llm (ctx ++ encoded).length).1] at hK
  by_cases hn : llm.NumCtx ≤ ((ctx ++ encoded).length : Int)
  · rw [marshalPrompt_embd_truncated llm ctx encoded hC hn]
    exact (truncate_length llm.NumCtx (marshalPrompt.keep llm (ctx ++ encoded).length).NumKeep
      ((ctx ++ encoded).map llama_token) hK0 hK (by rw [List.length_map]; exact hn)).2
  · rw [marshalPrompt_embd_short llm ctx encoded (by omega), List.length_map]
    omega

/-- What `marshalPrompt` establishes for the calls of `next` that follow. -/
theorem marshalPrompt_establishes (llm : llama) (ctx encoded : List Int)
    (hC : 4 ≤ llm.NumCtx) (hB : 1 ≤ llm.NumBatch) (hT : ctx ++ encoded ≠ []) :
    configured (marshalPrompt llm ctx encoded).llm ∧
      sessionInvariant (marshalPrompt llm ctx encoded).llm := by
  have ho := marshalPrompt_toOptions llm ctx encoded
  have hCtx : (marshalPrompt llm ctx encoded).llm.NumCtx = llm.NumCtx :=
    (congrArg Options.NumCtx ho).trans (keep_rest llm (ctx ++ encoded).length).1
  have hBat : (marshalPrompt llm ctx encoded).llm.NumBatch = llm.NumBatch :=
    (congrArg Options.NumBatch ho).trans (keep_NumBatch llm (ctx ++ encoded).length)
  have hKp : (marshalPrompt llm ctx encoded).llm.NumKeep
      = (marshalPrompt.keep llm (ctx ++ encoded).length).NumKeep := congrArg Options.NumKeep ho
  obtain ⟨hK0, hK⟩ := keep_nonneg llm (ctx ++ encoded).length hC
  rw [(keep_rest llm (ctx ++ encoded).length).1] at hK
  obtain ⟨-, hc0, hc1⟩ := marshalPrompt_no_panic llm ctx encoded hC hT
  have hlen := marshalPrompt_embd_length_le llm ctx encoded hC
  refine ⟨⟨by rw [hCtx]; exact hC, by rw [hBat]; exact hB, by rw [hKp]; exact hK0,
    by rw [hKp, hCtx]; exact hK⟩, hc0, by omega, by rw [hCtx]; exact hlen⟩

/-- The streaming loop keeps the session invariant. -/
theorem Predict_loop_invariant {σ : Type} (eng : Engine σ) (fuel n : Nat) :
    ∀ (l : llama) (w : σ) (b : Bytes) (calls : List GenerateResponse) (sampled : List Int),
      configured l → sessionInvariant l →
      sessionInvariant (Predict.loop eng fuel n l w b calls sampled).llm := by
  induction n with
  | zero =>
    intro l w b calls sampled _ hi
    exact hi
  | succ n ih =>
    intro l w b calls sampled hc hi
    obtain ⟨hc', hi', -⟩ := next_invariant eng fuel l w hc hi
    rw [Predict.loop]
    dsimp only
    generalize next eng fuel l w = r at hc' hi' ⊢
    obtain ⟨rl, rw, rr⟩ := r
    cases rr with
    | panic => exact hi'
    | running => exact hi'
    | ret token err =>
      dsimp only
      cases hg : (eng.gc rw).1 with
      | true =>
        simp only [hg, if_true]
        exact hi'
      | false =>
        simp only [hg, Bool.false_eq_true, if_false]
        cases err with
        | some e =>
          cases e <;> exact hi'
        | none =>
          dsimp only
          rcases Predict_body_eq rl b (eng.Decode token) with h | h | h | h
          · rw [h.2]
            exact hi'
          · rw [h.2]
            exact ih _ _ _ _ _ hc' hi'
          · rw [h.2.2]
            exact ih _ _ _ _ _ hc' hi'
          · rw [h.2.2]
            exact ih _ _ _ _ _ hc' hi'

/-- C17: for every capacity `C ≥ 4`, batch size at least 1 and non-empty
assembled sequence, the session satisfies `0 ≤ cursor ≤ len(history) ≤ C`
after `marshalPrompt`, which also leaves the keep-size clamped; every call of
`next` from such a state leaves such a state, whether it truncates the
history, returns a token, an evaluation error or end-of-sequence, and it
returns within `len(history) + 2` iterations of its evaluation loop; so the
invariant holds in the state in which `Predict` stops. -/
theorem session_invariant_maintained (llm : llama) (ctx encoded : List Int)
    (hC : 4 ≤ llm.NumCtx) (hB : 1 ≤ llm.NumBatch) (hT : ctx ++ encoded ≠ []) :
    sessionInvariant (marshalPrompt llm ctx encoded).llm ∧
    configured (marshalPrompt llm ctx encoded).llm ∧
    (∀ (σ : Type) (eng : Engine σ) (fuel : Nat) (l : llama) (w : σ),
      configured l → sessionInvariant l →
      configured (next eng fuel l w).llm ∧ sessionInvariant (next eng fuel l w).llm ∧
        (l.embd.length + 2 ≤ fuel → (next eng fuel l w).result ≠ NextResult.running)) ∧
    (∀ (σ : Type) (eng : Engine σ) (fuel : Nat) (w : σ) (prompt : Bytes),
      eng.Encode prompt = encoded →
      sessionInvariant (Predict eng fuel llm w ctx prompt).llm) := by
  obtain ⟨hc, hi⟩ := marshalPrompt_establishes llm ctx encoded hC hB hT
  refine ⟨hi, hc, fun σ eng fuel l w => next_invariant eng fuel l w, ?_⟩
  intro σ eng fuel w prompt hE
  unfold Predict
  dsimp only
  rw [hE]
  split_ifs
  · exact hi
  · exact Predict_loop_invariant eng fuel fuel _ _ _ _ _ hc hi

/-- Instance of C17: capacity 8, batch size 4, a prompt of twelve tokens and a
call of `next` that truncates a full history. -/
theorem session_invariant_maintained_witness :
    (4 : Int) ≤ session8.NumCtx ∧ (1 : Int) ≤ session8.NumBatch ∧
    ([1, 2, 3, 4, 5, 6, 7, 8, 9, 10, 11, 12] ++ [] : List Int) ≠ [] ∧
    (marshalPrompt session8 [1, 2, 3, 4, 5, 6, 7, 8, 9, 10, 11, 12] []).llm.cursor = 0 ∧
    (next stopEngine 5 { session8 with embd := [1, 2, 3, 4, 5, 6, 7, 8], cursor := 7 } 0).llm.cursor
      = 5 ∧
    (next stopEngine 5 { session8 with embd := [1, 2, 3, 4, 5, 6, 7, 8], cursor := 7 } 0).llm.embd
      = [1, 2, 6, 7, 8, 10] ∧
    sessionInvariant (marshalPrompt session8 [1, 2, 3, 4, 5, 6, 7, 8, 9, 10, 11, 12] []).llm ∧
    sessionInvariant
      (next stopEngine 5 { session8 with embd := [1, 2, 3, 4, 5, 6, 7, 8], cursor := 7 } 0).llm :=
  ⟨by decide, by decide, by decide, by decide, by decide, by decide,
    (session_invariant_maintained session8 [1, 2, 3, 4, 5, 6, 7, 8, 9, 10, 11, 12] []
      (by decide) (by decide) (by decide)).1,
    ((session_invariant_maintained session8 [1, 2, 3, 4, 5, 6, 7, 8, 9, 10, 11, 12] []
      (by decide) (by decide) (by decide)).2.2.1 Nat stopEngine 5
      { session8 with embd := [1, 2, 3, 4, 5, 6, 7, 8], cursor := 7 } 0
      ⟨by decide, by decide, by decide, by decide⟩ ⟨by decide, by decide, by decide⟩).2.1⟩

/-! ## Cancellation -/

/-- C11: if the cancellation flag `llm.gc` is set when an iteration of `Predict`
polls it, right after its call of `next` has returned (with a token, an error or
end-of-sequence), `Predict` returns `nil` at once: the responses handed to the
callback are those delivered before, so neither a final (`Done`) response nor a
further text chunk follows.  When `next` itself reads the flag as set at the head
of its evaluation loop it returns `(0, io.EOF)` without evaluating or sampling. -/
theorem Predict_cancelled {σ : Type} (eng : Engine σ) (fuel n : Nat) (llm : llama) (w : σ)
    (b : Bytes) (calls : List GenerateResponse) (sampled : List Int) (token : Int)
    (err : Option error)
    (hret : (next eng fuel llm w).result = NextResult.ret token err)
    (hgc : (eng.gc (next eng fuel llm w).world).1 = true) :
    Predict.loop eng fuel (n + 1) llm w b calls sampled
      = ⟨calls, sampled, Status.returned none, (next eng fuel llm w).llm,
          (eng.gc (next eng fuel llm w).world).2⟩ ∧
    (Predict.loop eng fuel (n + 1) llm w b calls sampled).status = Status.returned none ∧
    (Predict.loop eng fuel (n + 1) llm w b calls sampled).calls = calls ∧
    ((∀ r ∈ calls, r.Done = false) →
      ∀ r ∈ (Predict.loop eng fuel (n + 1) llm w b calls sampled).calls, r.Done = false) ∧
    (∀ (m : Nat) (l' : llama) (w' : σ), (eng.gc w').1 = true →
      next.loop eng (m + 1) l' w' = ⟨l', (eng.gc w').2, NextResult.ret 0 (some error.EOF)⟩) := by
  have hloop : Predict.loop eng fuel (n + 1) llm w b calls sampled
      = ⟨calls, sampled, Status.returned none, (next eng fuel llm w).llm,
          (eng.gc (next eng fuel llm w).world).2⟩ := by
    rw [Predict.loop]
    dsimp only
    rw [hret]
    dsimp only
    rw [hgc]
    simp only [if_true]
  refine ⟨hloop, by rw [hloop], by rw [hloop], ?_, ?_⟩
  · intro h
    rw [hloop]
    exact h
  · intro m l' w' hg
    rw [next.loop]
    dsimp only
    rw [hg]
    simp only [if_true]

/-- Instance of C11: the flag is set while the second token of the stop
scenario is sampled; `"he"` has been delivered, `"llo "` and the final response
never are. -/
theorem Predict_cancelled_witness :
    (next cancelEngine 6 { session64 [ascii "STOP"] with embd := [1, 10], cursor := 1 } 1).result
      = NextResult.ret 11 none ∧
    (cancelEngine.gc
      (next cancelEngine 6 { session64 [ascii "STOP"] with embd := [1, 10], cursor := 1 } 1).world).1
      = true ∧
    (Predict cancelEngine 6 (session64 [ascii "STOP"]) 0 [] []).status = Status.returned none ∧
    (Predict cancelEngine 6 (session64 [ascii "STOP"]) 0 [] []).calls = [⟨ascii "he", false, []⟩] ∧
    (Predict.loop cancelEngine 6 1 { session64 [ascii "STOP"] with embd := [1, 10], cursor := 1 } 1
      [] [⟨ascii "he", false, []⟩] [10]).calls = [⟨ascii "he", false, []⟩] :=
  ⟨by decide, by decide, by decide, by decide,
    (Predict_cancelled cancelEngine 6 0
      { session64 [ascii "STOP"] with embd := [1, 10], cursor := 1 } 1 []
      [⟨ascii "he", false, []⟩] [10] 11 none (by decide) (by decide)).2.2.1⟩

/-! ## `Embedding` and `llama_sample` -/

/-- C12: `Embedding` returns an error exactly when the session is not in
embedding-only mode, or the encoding of the input is empty, or the engine
evaluation returns non-zero, or the engine reports an embedding width `≤ 0`,
checked in that order; no engine call is made when the mode check fails (or the
encoding is empty); otherwise it returns the engine's embedding vector.  In every
case the session, with its history, cursor and repetition window, is unchanged. -/
theorem Embedding_errors {σ F : Type} (eng : EmbeddingEngine σ F) (llm : llama) (w : σ)
    (input : Bytes) :
    (Embedding eng llm w input).llm = llm ∧
    (llm.EmbeddingOnly = false →
      (Embedding eng llm w input).result = Except.error EmbeddingError.notEnabled ∧
      (Embedding eng llm w input).world = w) ∧
    (llm.EmbeddingOnly = true → eng.Encode input = [] →
      (Embedding eng llm w input).result = Except.error EmbeddingError.tokenize ∧
      (Embedding eng llm w input).world = w) ∧
    (llm.EmbeddingOnly = true → eng.Encode input ≠ [] →
      (Embedding eng llm w input).world
        = (eng.llama_eval w ((eng.Encode input).map llama_token) (eng.Encode input).length 0).2 ∧
      ((eng.llama_eval w ((eng.Encode input).map llama_token) (eng.Encode input).length 0).1 ≠ 0 →
        (Embedding eng llm w input).result = Except.error EmbeddingError.eval) ∧
      ((eng.llama_eval w ((eng.Encode input).map llama_token) (eng.Encode input).length 0).1 = 0 →
        eng.llama_n_embd
          (eng.llama_eval w ((eng.Encode input).map llama_token) (eng.Encode input).length 0).2 ≤ 0 →
        (Embedding eng llm w input).result = Except.error EmbeddingError.noEmbeddings) ∧
      ((eng.llama_eval w ((eng.Encode input).map llama_token) (eng.Encode input).length 0).1 = 0 →
        0 < eng.llama_n_embd
          (eng.llama_eval w ((eng.Encode input).map llama_token) (eng.Encode input).length 0).2 →
        (Embedding eng llm w input).result = Except.ok
          ((List.range (eng.llama_n_embd
              (eng.llama_eval w ((eng.Encode input).map llama_token)
                (eng.Encode input).length 0).2).toNat).map
            (eng.llama_get_embeddings
              (eng.llama_eval w ((eng.Encode input).map llama_token)
                (eng.Encode input).length 0).2)))) ∧
    ((∃ e : EmbeddingError, (Embedding eng llm w input).result = Except.error e) ↔
      (llm.EmbeddingOnly = false ∨ eng.Encode input = [] ∨
        (eng.llama_eval w ((eng.Encode input).map llama_token) (eng.Encode input).length 0).1 ≠ 0 ∨
        eng.llama_n_embd
          (eng.llama_eval w ((eng.Encode input).map llama_token) (eng.Encode input).length 0).2
            ≤ 0)) := by
  unfold Embedding
  cases hm : llm.EmbeddingOnly with
  | false => simp
  | true =>
    by_cases ht : eng.Encode input = []
    · simp [ht]
    · by_cases hr : (eng.llama_eval w ((eng.Encode input).map llama_token)
          (eng.Encode input).length 0).1 = 0
      · by_cases hN : eng.llama_n_embd (eng.llama_eval w ((eng.Encode input).map llama_token)
            (eng.Encode input).length 0).2 ≤ 0
        · simp [ht, hr, hN]
        · have hN' : 0 < eng.llama_n_embd (eng.llama_eval w
              ((eng.Encode input).map llama_token) (eng.Encode input).length 0).2 := by omega
          simp [ht, hr, hN, hN']
      · simp [ht, hr]

/-- Instance of C12: a session in embedding-only mode on an engine that
reports the three values `0 10 20`; and the same session with the mode off. -/
theorem Embedding_errors_witness :
    (Embedding embedEngine { session8 with EmbeddingOnly := true } 0 (ascii "hi")).result
      = Except.ok [0, 10, 20] ∧
    (Embedding embedEngine session8 0 (ascii "hi")).result
      = Except.error EmbeddingError.notEnabled ∧
    (Embedding embedEngine session8 0 (ascii "hi")).world = 0 :=
  ⟨by rfl,
    ((Embedding_errors embedEngine session8 0 (ascii "hi")).2.1 (by decide)).1,
    ((Embedding_errors embedEngine session8 0 (ascii "hi")).2.1 (by decide)).2⟩

/-- C13: with the sampling primitives as black boxes, `llama_sample` first
applies the repetition penalty and then the frequency and presence penalties
(and restores the newline entry unless `penalize_newline` is set), and then runs
exactly one pipeline on the result: if `temperature ≤ 0` the greedy pick, whose
result does not depend on `top_k`, `top_p`, `tfs_z`, `typical_p` or the mirostat
settings; else if `mirostat = 1` temperature scaling and then mirostat-v1 with
window 100 and `mu = 2 * tau`; else if `mirostat = 2` temperature scaling and
then mirostat-v2 with `mu = 2 * tau`; otherwise top-k, tail-free, typical,
top-p, temperature scaling and a single draw, in that order. -/
theorem llama_sample_pipeline {S F D : Type} (p : Primitives S F D) (s : S)
    (last_tokens : List Int) (opts : llama_sample_options F) :
    llama_sample.penalties p s last_tokens opts
      = (if opts.penalize_newline = true then
          p.llama_sample_frequency_and_presence_penalties
            (p.llama_sample_repetition_penalty s last_tokens opts.repeat_penalty) last_tokens
            opts.frequency_penalty opts.presence_penalty
        else
          p.setData
            (p.llama_sample_frequency_and_presence_penalties
              (p.llama_sample_repetition_penalty s last_tokens opts.repeat_penalty) last_tokens
              opts.frequency_penalty opts.presence_penalty)
            p.llama_token_nl (p.data s p.llama_token_nl)) ∧
    (p.le_zero opts.temperature = true →
      llama_sample p s last_tokens opts
        = p.llama_sample_token_greedy (llama_sample.penalties p s last_tokens opts)) ∧
    (p.le_zero opts.temperature = true →
      ∀ opts' : llama_sample_options F,
        opts'.repeat_penalty = opts.repeat_penalty →
        opts'.frequency_penalty = opts.frequency_penalty →
        opts'.presence_penalty = opts.presence_penalty →
        opts'.temperature = opts.temperature →
        opts'.penalize_newline = opts.penalize_newline →
        llama_sample p s last_tokens opts' = llama_sample p s last_tokens opts) ∧
    (p.le_zero opts.temperature = false → opts.mirostat = 1 →
      llama_sample p s last_tokens opts
        = p.llama_sample_token_mirostat
            (p.llama_sample_temperature (llama_sample.penalties p s last_tokens opts)
              opts.temperature)
            opts.mirostat_tau opts.mirostat_eta 100 (p.two_mul opts.mirostat_tau)) ∧
    (p.le_zero opts.temperature = false → opts.mirostat = 2 →
      llama_sample p s last_tokens opts
        = p.llama_sample_token_mirostat_v2
            (p.llama_sample_temperature (llama_sample.penalties p s last_tokens opts)
              opts.temperature)
            opts.mirostat_tau opts.mirostat_eta (p.two_mul opts.mirostat_tau)) ∧
    (p.le_zero opts.temperature = false → opts.mirostat ≠ 1 → opts.mirostat ≠ 2 →
      llama_sample p s last_tokens opts
        = p.llama_sample_token
            (p.llama_sample_temperature
              (p.llama_sample_top_p
                (p.llama_sample_typical
                  (p.llama_sample_tail_free
                    (p.llama_sample_top_k (llama_sample.penalties p s last_tokens opts)
                      opts.top_k 1)
                    opts.tfs_z 1)
                  opts.typical_p 1)
                opts.top_p 1)
              opts.temperature)) := by
  refine ⟨?_, ?_, ?_, ?_, ?_, ?_⟩
  · unfold llama_sample.penalties
    dsimp only
    cases opts.penalize_newline <;> rfl
  · intro ht
    unfold llama_sample
    dsimp only
    rw [if_pos ht]
  · intro ht opts' h1 h2 h3 h4 h5
    have hp : llama_sample.penalties p s last_tokens opts'
        = llama_sample.penalties p s last_tokens opts := by
      unfold llama_sample.penalties
      dsimp only
      rw [h1, h2, h3, h5]
    unfold llama_sample
    dsimp only
    rw [h4, if_pos ht, if_pos ht, hp]
  · intro ht hm
    unfold llama_sample
    dsimp only
    rw [if_neg (by rw [ht]; exact Bool.noConfusion), if_pos hm]
  · intro ht hm
    unfold llama_sample
    dsimp only
    rw [if_neg (by rw [ht]; exact Bool.noConfusion), if_neg (by rw [hm]; decide), if_pos hm]
  · intro ht hm1 hm2
    unfold llama_sample
    dsimp only
    rw [if_neg (by rw [ht]; exact Bool.noConfusion), if_neg hm1, if_neg hm2]

/-- Instance of C13 on primitives that record their calls: the greedy pick at
temperature 0, mirostat-v1 (window 100 and `mu = 2 * 5` show in the token
`110`), mirostat-v2 and the standard pipeline. -/
theorem llama_sample_pipeline_witness :
    llama_sample tracePrimitives [] [] (traceOptions 0 1 5)
      = (0, ["repetition_penalty", "frequency_and_presence_penalties", "restore_newline",
          "token_greedy"]) ∧
    llama_sample tracePrimitives [] [] (traceOptions 1 1 5)
      = (110, ["repetition_penalty", "frequency_and_presence_penalties", "restore_newline",
          "temperature", "token_mirostat"]) ∧
    llama_sample tracePrimitives [] [] (traceOptions 1 2 5)
      = (10, ["repetition_penalty", "frequency_and_presence_penalties", "restore_newline",
          "temperature", "token_mirostat_v2"]) ∧
    llama_sample tracePrimitives [] [] (traceOptions 1 0 5)
      = (1, ["repetition_penalty", "frequency_and_presence_penalties", "restore_newline",
          "top_k", "tail_free", "typical", "top_p", "temperature", "token"]) ∧
    llama_sample tracePrimitives [] [] (traceOptions 0 2 7)
      = llama_sample tracePrimitives [] [] (traceOptions 0 1 5) :=
  ⟨by decide, by decide, by decide, by decide,
    (llama_sample_pipeline tracePrimitives [] [] (traceOptions 0 1 5)).2.2.1 (by decide)
      (traceOptions 0 2 7) rfl rfl rfl rfl rfl⟩

/-! ## Delivered text and sampled text -/

theorem deliveredText_append_chunk (calls : List GenerateResponse) (chunk : Bytes) :
    deliveredText (calls ++ [⟨chunk, false, []⟩]) = deliveredText calls ++ chunk := by
  unfold deliveredText
  simp

theorem deliveredText_append_final (calls : List GenerateResponse) (ctx : List Int) :
    deliveredText (calls ++ [⟨[], true, ctx⟩]) = deliveredText calls := by
  unfold deliveredText
  simp

/-- Loop invariant of `Predict`: the delivered text followed by the buffer is
the decoded text of the tokens sampled so far. -/
theorem Predict_loop_text {σ : Type} (eng : Engine σ) (fuel n : Nat) :
    ∀ (l : llama) (w : σ) (b : Bytes) (calls : List GenerateResponse) (sampled : List Int),
      deliveredText calls ++ b = (sampled.map eng.Decode).flatten →
      deliveredText (Predict.loop eng fuel n l w b calls sampled).calls
          ++ Predict.held eng fuel n l w b
        = ((Predict.loop eng fuel n l w b calls sampled).sampled.map eng.Decode).flatten := by
  induction n with
  | zero =>
    intro l w b calls sampled h
    exact h
  | succ n ih =>
    intro l w b calls sampled h
    have hstep : ∀ token : Int,
        deliveredText calls ++ (b ++ eng.Decode token)
          = ((sampled ++ [token]).map eng.Decode).flatten := by
      intro token
      rw [← List.append_assoc, h]
      simp
    rw [Predict.loop, Predict.held]
    dsimp only
    generalize next eng fuel l w = r
    obtain ⟨rl, rw, rr⟩ := r
    cases rr with
    | panic => exact h
    | running => exact h
    | ret token err =>
      dsimp only
      cases hg : (eng.gc rw).1 with
      | true =>
        simp only [hg, if_true]
        exact h
      | false =>
        simp only [hg, Bool.false_eq_true, if_false]
        cases err with
        | some e =>
          cases e
          · show deliveredText (calls ++ [⟨[], true, rl.embd⟩]) ++ b = _
            rw [deliveredText_append_final]
            exact h
          · exact h
          · exact h
        | none =>
          dsimp only
          rcases Predict_body_eq rl b (eng.Decode token) with hb | hb | hb | hb
          · rw [hb.2]
            show deliveredText (calls ++ [⟨[], true, rl.embd⟩]) ++ (b ++ eng.Decode token) = _
            rw [deliveredText_append_final]
            exact hstep token
          · rw [hb.2]
            exact ih _ _ _ _ _ (hstep token)
          · rw [hb.2.2]
            apply ih
            rw [deliveredText_append_chunk, List.append_nil]
            exact hstep token
          · rw [hb.2.2]
            exact ih _ _ _ _ _ (hstep token)

/-- C20: for every engine (every sequence of sampled tokens), every stop list
and every fuel, the concatenation, in delivery order, of the `Response` texts
of the non-final responses that `Predict` passes to the callback, followed by
the content of the buffer when the loop stops, is the concatenation of the
decoded texts of the sampled tokens that the loop took up.  So the delivered
text is a prefix of the sampled text, and it is the whole of it only if the
buffer is empty when the loop stops: text still buffered then is discarded. -/
theorem Predict_delivered_text {σ : Type} (eng : Engine σ) (fuel : Nat) (llm : llama) (w : σ)
    (ctx : List Int) (prompt : Bytes) :
    deliveredText (Predict eng fuel llm w ctx prompt).calls
        ++ (if (marshalPrompt llm ctx (eng.Encode prompt)).panicked = true then []
            else Predict.held eng fuel fuel (marshalPrompt llm ctx (eng.Encode prompt)).llm w [])
      = ((Predict eng fuel llm w ctx prompt).sampled.map eng.Decode).flatten ∧
    deliveredText (Predict eng fuel llm w ctx prompt).calls
      <+: ((Predict eng fuel llm w ctx prompt).sampled.map eng.Decode).flatten ∧
    (deliveredText (Predict eng fuel llm w ctx prompt).calls
        = ((Predict eng fuel llm w ctx prompt).sampled.map eng.Decode).flatten →
      (if (marshalPrompt llm ctx (eng.Encode prompt)).panicked = true then []
        else Predict.held eng fuel fuel (marshalPrompt llm ctx (eng.Encode prompt)).llm w [])
        = []) := by
  have key : deliveredText (Predict eng fuel llm w ctx prompt).calls
        ++ (if (marshalPrompt llm ctx (eng.Encode prompt)).panicked = true then []
            else Predict.held eng fuel fuel (marshalPrompt llm ctx (eng.Encode prompt)).llm w [])
      = ((Predict eng fuel llm w ctx prompt).sampled.map eng.Decode).flatten := by
    unfold Predict
    dsimp only
    split_ifs
    · rfl
    · exact Predict_loop_text eng fuel fuel _ _ _ _ _ rfl
  refine ⟨key, ⟨_, key⟩, ?_⟩
  intro hall
  rw [hall] at key
  exact List.append_right_eq_self.mp key

/-- Instance of C20: in the stop scenario the delivered text is `"hello "` and
the sampled text `"hello STOP"`, with `"STOP"` in the buffer at the stop match;
with stop string `"DONE"` and tokens `"DO"`, `"NE"` nothing is delivered and
`"DONE"` is discarded. -/
theorem Predict_delivered_text_witness :
    deliveredText (Predict stopEngine 4 (session64 [ascii "STOP"]) 0 [] []).calls = ascii "hello " ∧
    ((Predict stopEngine 4 (session64 [ascii "STOP"]) 0 [] []).sampled.map stopEngine.Decode).flatten
      = ascii "hello STOP" ∧
    deliveredText (Predict doneEngine 4 (session64 [ascii "DONE"]) 0 [] []).calls = [] ∧
    ((Predict doneEngine 4 (session64 [ascii "DONE"]) 0 [] []).sampled.map doneEngine.Decode).flatten
      = ascii "DONE" ∧
    deliveredText (Predict stopEngine 4 (session64 [ascii "STOP"]) 0 [] []).calls
      <+: ((Predict stopEngine 4 (session64 [ascii "STOP"]) 0 [] []).sampled.map
            stopEngine.Decode).flatten :=
  ⟨by decide, by decide, by decide, by decide,
    (Predict_delivered_text stopEngine 4 (session64 [ascii "STOP"]) 0 [] []).2.1⟩

end llm
